import Mathlib

/-!
Verification of the Sankey flow-graph engine: graph construction from weighted
journeys, per-node metadata (flow totals, heights, percentages), stacked link
layout, segment-based coloring, and breadth-first link reachability.

The definitions below are a shallow embedding of the TypeScript source
(`SankeyDiagram` and its helpers).  JS numbers carrying exact integer counts
are modelled as `Int`; derived continuous quantities (scaled thicknesses,
offsets, percentages) are modelled as `Rat`, on which the source's linear
arithmetic is exact.  Node identity keys are the same strings the source
builds (`i + "_" + label`), so key-collision behaviour is preserved.
-/

namespace Sankey

/-- One observed weighted path: `{ path: string[], count, percentage }`. -/
structure Journey where
  path : List String
  count : Int
  percentage : Rat
deriving DecidableEq, Repr

/-- A graph node as created by the builder: `{ id, name, step }` (the
incoming/outgoing link lists are attached by a later pass, see `BNode`). -/
structure Node where
  id : String
  name : String
  step : Nat
deriving DecidableEq, Repr

/-- A weighted directed edge: `{ source, target, value }` where `source` and
`target` are node id strings. -/
structure Link where
  source : String
  target : String
  value : Int
deriving DecidableEq, Repr

/-- The node id template string `` `${i}_${stepName}` ``. -/
def nodeKey (i : Nat) (stepName : String) : String :=
  toString i ++ "_" ++ stepName

/-- The visited-set key `` `${source}|||${target}` `` used by the traversal. -/
def linkId (l : Link) : String :=
  l.source ++ "|||" ++ l.target

/-- Embeds `if (!nodes.find(n => n.id === stepKey)) nodes.push({...})`. -/
def addNode (nodes : List Node) (i : Nat) (stepName : String) : List Node :=
  if nodes.any (fun n => n.id = nodeKey i stepName) then nodes
  else nodes ++ [⟨nodeKey i stepName, stepName, i⟩]

/-- Embeds `existingLink.value += journey.count` on the first link matching
the ordered (source, target) pair, as `links.find` returns the first match. -/
def bumpFirstLink (src tgt : String) (c : Int) : List Link → List Link
  | [] => []
  | l :: ls =>
    if l.source = src ∧ l.target = tgt then { l with value := l.value + c } :: ls
    else l :: bumpFirstLink src tgt c ls

/-- Embeds the link get-or-create: accumulate into the existing link for the
ordered pair, otherwise push a fresh link with the journey's count. -/
def addLink (links : List Link) (src tgt : String) (c : Int) : List Link :=
  if links.any (fun l => l.source = src ∧ l.target = tgt) then
    bumpFirstLink src tgt c links
  else links ++ [⟨src, tgt, c⟩]

/-- Embeds the inner `for (let i = 0; i < journey.path.length; i++)` loop of
the builder, processing the suffix of the path that starts at position `i`:
create the node for `(i, path[i])`, and for a non-final position also
get-or-create the link to `(i+1, path[i+1])` weighted by the journey count. -/
def processPath (c : Int) : Nat → List String → List Node × List Link → List Node × List Link
  | _, [], st => st
  | i, [stepName], (ns, ls) => (addNode ns i stepName, ls)
  | i, stepName :: next :: rest, (ns, ls) =>
    processPath c (i + 1) (next :: rest)
      (addNode ns i stepName, addLink ls (nodeKey i stepName) (nodeKey (i + 1) next) c)

/-- Embeds `journeys.slice(0, maxJourneys).forEach(...)`: the node and link
lists built from the first `maxJourneys` journeys. -/
def buildGraph (journeys : List Journey) (maxJourneys : Nat) : List Node × List Link :=
  (journeys.take maxJourneys).foldl (fun st j => processPath j.count 0 j.path st) ([], [])

/-- A node together with the `incomingLinks` / `outgoingLinks` arrays that the
source attaches by a pass over the link list. -/
structure BNode where
  id : String
  name : String
  step : Nat
  incomingLinks : List Link
  outgoingLinks : List Link
deriving DecidableEq, Repr

/-- Embeds `nodes.find(n => n.id === link.source).outgoingLinks.push(link)`:
the first node whose id matches the link's source gets the link appended. -/
def pushOutgoing (l : Link) : List BNode → List BNode
  | [] => []
  | n :: ns =>
    if n.id = l.source then { n with outgoingLinks := n.outgoingLinks ++ [l] } :: ns
    else n :: pushOutgoing l ns

/-- Embeds `nodes.find(n => n.id === link.target).incomingLinks.push(link)`. -/
def pushIncoming (l : Link) : List BNode → List BNode
  | [] => []
  | n :: ns =>
    if n.id = l.target then { n with incomingLinks := n.incomingLinks ++ [l] } :: ns
    else n :: pushIncoming l ns

/-- Embeds the `links.forEach` pass that populates each node's incoming and
outgoing link lists (outgoing pushed before incoming, in link-list order). -/
def attachLinks (nodes : List Node) (links : List Link) : List BNode :=
  links.foldl (fun bns l => pushIncoming l (pushOutgoing l bns))
    (nodes.map (fun n => ⟨n.id, n.name, n.step, [], []⟩))

/-- The reference enrichment `attachLinks` is proved equal to: each node gets
exactly the links whose target (resp. source) is its id, in link order. -/
def attachNode (lsIn lsOut : List Link) (n : Node) : BNode :=
  ⟨n.id, n.name, n.step, lsIn.filter (fun l => l.target = n.id),
    lsOut.filter (fun l => l.source = n.id)⟩

/-- MIN_LINK_HEIGHT from the source. -/
def MIN_LINK_HEIGHT : Rat := 0

/-- MAX_LINK_HEIGHT from the source. -/
def MAX_LINK_HEIGHT : Rat := 100

/-- MIN_NODE_HEIGHT from the source. -/
def MIN_NODE_HEIGHT : Rat := 2

/-- Embeds `d3.max(links, link => link.value) || 1`: the largest link value,
with both the empty-list `undefined` and a zero maximum replaced by 1. -/
def maxLinkValue (links : List Link) : Int :=
  match links.map (fun l => l.value) with
  | [] => 1
  | v :: vs => if vs.foldl max v = 0 then 1 else vs.foldl max v

/-- Embeds `d3.scaleLinear().domain([0, maxLinkValue]).range([MIN_LINK_HEIGHT,
MAX_LINK_HEIGHT])` applied to `v`: linear interpolation, exact over `Rat`. -/
def linkWidthScale (links : List Link) (v : Int) : Rat :=
  MIN_LINK_HEIGHT + (v : Rat) / (maxLinkValue links : Rat) * (MAX_LINK_HEIGHT - MIN_LINK_HEIGHT)

/-- Embeds `node.incomingLinks.reduce((sum, link) => sum + link.value, 0)`. -/
def incomingValue (bn : BNode) : Int :=
  (bn.incomingLinks.map (fun l => l.value)).sum

/-- Embeds `node.outgoingLinks.reduce((sum, link) => sum + link.value, 0)`. -/
def outgoingValue (bn : BNode) : Int :=
  (bn.outgoingLinks.map (fun l => l.value)).sum

/-- Embeds `node.height = Math.max(linkWidthScale(maxValue), MIN_NODE_HEIGHT)`
where `maxValue = Math.max(incomingValue, outgoingValue)`. -/
def nodeHeight (links : List Link) (bn : BNode) : Rat :=
  max (linkWidthScale links (max (incomingValue bn) (outgoingValue bn))) MIN_NODE_HEIGHT

/-- Embeds `node.count = node.step === 0 ? outgoingValue : incomingValue`. -/
def nodeCount (bn : BNode) : Int :=
  if bn.step = 0 then outgoingValue bn else incomingValue bn

/-- Embeds `journeys.find(journey => journey.path[node.step] === node.name)`,
then `matchingJourney ? matchingJourney.percentage : 0`; note the whole input
journey list is searched, not the `maxJourneys` slice. -/
def nodePercentage (journeys : List Journey) (bn : BNode) : Rat :=
  match journeys.find? (fun j => j.path[bn.step]? = some bn.name) with
  | some j => j.percentage
  | none => 0

/-- Stable insertion of a link into a list sorted by descending value: the new
link goes before the first element whose value is not larger. -/
def insertLinkDesc (x : Link) : List Link → List Link
  | [] => [x]
  | y :: ys => if x.value < y.value then y :: insertLinkDesc x ys else x :: y :: ys

/-- Embeds `sort((a, b) => b.value - a.value)`, a stable descending sort by
value (Array.prototype.sort is stable); the sortedness and stability theorems
below pin this function to exactly that specification. -/
def sortLinksDesc : List Link → List Link
  | [] => []
  | x :: xs => insertLinkDesc x (sortLinksDesc xs)

/-- Embeds the stacking loop: each link's anchor is the running offset plus
half its scaled thickness, and the running offset advances by the full scaled
thickness.  Offsets are measured from `startY`. -/
def stackOffsets (links : List Link) (startY : Rat) : List Link → List (Link × Rat)
  | [] => []
  | l :: ls =>
    (l, startY + linkWidthScale links l.value / 2)
      :: stackOffsets links (startY + linkWidthScale links l.value) ls

/-- Anchor offsets of a node's outgoing links, measured from the node's top
edge (the source starts the running offset at `node.y - node.height / 2`, the
top edge, so offsets here are relative to that edge). -/
def outgoingOffsets (links : List Link) (bn : BNode) : List (Link × Rat) :=
  stackOffsets links 0 (sortLinksDesc bn.outgoingLinks)

/-- Anchor offsets of a node's incoming links, measured from the node's top
edge. -/
def incomingOffsets (links : List Link) (bn : BNode) : List (Link × Rat) :=
  stackOffsets links 0 (sortLinksDesc bn.incomingLinks)

/-- Character-level model of the source's `path.split("/")` with its
single-character separator: JS yields `[""]` on the empty string and leading
separators yield leading empty components, both reproduced here. -/
def splitSlash : List Char → List (List Char)
  | [] => [[]]
  | c :: cs =>
    if c = '/' then [] :: splitSlash cs
    else
      match splitSlash cs with
      | s :: rest => (c :: s) :: rest
      | [] => [[c]]

/-- Embeds `getFirstSegment`: first non-empty '/'-separated component of the
label, prefixed by '/', or the whole label when there is none. -/
def getFirstSegment (path : String) : String :=
  match ((splitSlash path.data).map (fun cs => List.asString cs)).filter
      (fun s => s ≠ "") with
  | [] => path
  | s :: _ => "/" ++ s

/-- The fixed color palette for repeated segments. -/
def colorPalette : List String :=
  ["hsl(160, 45%, 40%)", "hsl(220, 45%, 50%)", "hsl(270, 40%, 50%)", "hsl(25, 50%, 50%)",
    "hsl(340, 40%, 50%)", "hsl(190, 45%, 45%)", "hsl(45, 45%, 50%)", "hsl(0, 45%, 50%)"]

/-- The fixed neutral color for one-off segments. -/
def defaultColor : String := "hsl(0, 0%, 50%)"

/-- Keys of the `segmentCounts` map in insertion order: first-seen order of
segment keys over the node list. -/
def firstSeenSegments (nodes : List Node) : List String :=
  nodes.foldl (fun acc n =>
    if getFirstSegment n.name ∈ acc then acc else acc ++ [getFirstSegment n.name]) []

/-- The final count stored in `segmentCounts` for a segment key. -/
def segmentCount (nodes : List Node) (seg : String) : Nat :=
  (nodes.filter (fun n => getFirstSegment n.name = seg)).length

/-- Embeds the `segmentCounts.forEach` loop assigning palette colors: keys
occurring more than once get `colorPalette[colorIndex % length]` and advance
`colorIndex`; other keys get no entry. -/
def segmentColorsAux (nodes : List Node) : Nat → List String → List (String × String)
  | _, [] => []
  | idx, seg :: rest =>
    if 1 < segmentCount nodes seg then
      (seg, colorPalette.getD (idx % colorPalette.length) defaultColor)
        :: segmentColorsAux nodes (idx + 1) rest
    else segmentColorsAux nodes idx rest

/-- The `segmentColors` map: palette assignments for repeated segment keys in
first-seen order. -/
def segmentColors (nodes : List Node) : List (String × String) :=
  segmentColorsAux nodes 0 (firstSeenSegments nodes)

/-- Embeds `getNodeColor`: the segment's assigned color, or the default. -/
def getNodeColor (nodes : List Node) (n : Node) : String :=
  match (segmentColors nodes).find? (fun p => p.1 = getFirstSegment n.name) with
  | some p => p.2
  | none => defaultColor

/-- Embeds `getLinkColor`: the source node's color, or the theme link color
when the source node cannot be found. -/
def getLinkColor (nodes : List Node) (fallback : String) (l : Link) : String :=
  match nodes.find? (fun n => n.id = l.source) with
  | some n => getNodeColor nodes n
  | none => fallback

/-- Traversal direction of `findAllConnectedPaths`. -/
inductive Direction
  | forward
  | backward
deriving DecidableEq, Repr

/-- The links enqueued from the current link: the outgoing links of its target
node (forward) or the incoming links of its source node (backward); nothing
when the node lookup fails. -/
def nextLinks (bnodes : List BNode) (dir : Direction) (l : Link) : List Link :=
  match dir with
  | .forward =>
    match bnodes.find? (fun n => n.id = l.target) with
    | some n => n.outgoingLinks
    | none => []
  | .backward =>
    match bnodes.find? (fun n => n.id = l.source) with
    | some n => n.incomingLinks
    | none => []

/-- Embeds the `while (queue.length > 0)` loop of `findAllConnectedPaths`.
The source loop is unbounded; the `fuel` argument only counts loop iterations
and `none` reports that the iteration bound was reached — the termination
theorem shows this never happens at the fuel below. -/
def bfsAux (bnodes : List BNode) (dir : Direction) :
    Nat → List Link → List String → List Link → Option (List Link)
  | _, [], _, acc => some acc
  | 0, _ :: _, _, _ => none
  | fuel + 1, l :: queue, visited, acc =>
    if linkId l ∈ visited then bfsAux bnodes dir fuel queue visited acc
    else bfsAux bnodes dir fuel (queue ++ nextLinks bnodes dir l)
      (linkId l :: visited) (acc ++ [l])

/-- Iteration bound sufficient for any traversal over a graph with this link
list (each distinct visited key enqueues at most `links.length` links). -/
def bfsFuel (links : List Link) : Nat :=
  (links.length + 1) * (links.length + 1) + 2

/-- Embeds `findAllConnectedPaths(startLink, direction)`: breadth-first over a
queue seeded with the start link, with a visited set keyed by `linkId`. -/
def findAllConnectedPaths (bnodes : List BNode) (links : List Link)
    (startLink : Link) (dir : Direction) : Option (List Link) :=
  bfsAux bnodes dir (bfsFuel links) [startLink] [] []

/-- Embeds `links.filter(link => link.source === nodeId || link.target ===
nodeId)`: the links directly touching the hovered node. -/
def directLinks (links : List Link) (nodeId : String) : List Link :=
  links.filter (fun l => l.source = nodeId ∨ l.target = nodeId)

/-- Embeds the node-hover handler's gathering loop: every direct link, plus
the forward and the backward traversal seeded from each of them. -/
def hoverConnectedLinks (bnodes : List BNode) (links : List Link)
    (nodeId : String) : List Link :=
  (directLinks links nodeId).foldl (fun acc l =>
    acc ++ l :: ((findAllConnectedPaths bnodes links l .forward).getD [] ++
      (findAllConnectedPaths bnodes links l .backward).getD [])) []

/-- The `connectedLinkIds` set contents (as a list of keys). -/
def hoverConnectedLinkIds (bnodes : List BNode) (links : List Link)
    (nodeId : String) : List String :=
  (hoverConnectedLinks bnodes links nodeId).map linkId

/-- The `connectedNodeIds` set contents: the hovered node plus both endpoints
of every gathered link. -/
def hoverConnectedNodeIds (bnodes : List BNode) (links : List Link)
    (nodeId : String) : List String :=
  nodeId :: (hoverConnectedLinks bnodes links nodeId).foldl
    (fun acc l => acc ++ [l.source, l.target]) []

/-- A link touches a node id as source or target. -/
def touchesNode (l : Link) (nodeId : String) : Prop :=
  l.source = nodeId ∨ l.target = nodeId

/-- Two links share an endpoint (ignoring direction). -/
def sharesEndpoint (l l' : Link) : Prop :=
  l.source = l'.source ∨ l.source = l'.target ∨
    l.target = l'.source ∨ l.target = l'.target

/-- A link of the graph is weakly connected to a node: reachable from a link
touching that node by repeatedly moving to links sharing an endpoint,
ignoring edge direction. -/
inductive WeaklyConnected (links : List Link) (nodeId : String) : Link → Prop
  | base (l : Link) : l ∈ links → touchesNode l nodeId → WeaklyConnected links nodeId l
  | step (l l' : Link) : WeaklyConnected links nodeId l → l' ∈ links →
      sharesEndpoint l l' → WeaklyConnected links nodeId l'

/-- The `(layerIndex, label)` pair occurs in the considered journeys. -/
def pairOccurs (journeys : List Journey) (maxJourneys i : Nat) (a : String) : Prop :=
  ∃ j ∈ journeys.take maxJourneys, j.path[i]? = some a

instance (journeys : List Journey) (maxJourneys i : Nat) (a : String) :
    Decidable (pairOccurs journeys maxJourneys i a) := by
  unfold pairOccurs
  infer_instance

/-- Total value of the links carrying a given ordered (source, target) pair. -/
def pairValue (links : List Link) (s t : String) : Int :=
  ((links.filter (fun l => l.source = s ∧ l.target = t)).map (fun l => l.value)).sum

/-- Reading decimal digit characters back as a number (proof device for the
injectivity of the node id rendering). -/
def readDigits (a : Nat) (cs : List Char) : Nat :=
  cs.foldl (fun a c => 10 * a + (c.toNat - 48)) a

/-- The sorted-and-stacked layout property of one side of a node: the side's
links sorted by descending value with ties in creation order (stability
stated per value class), and each anchor offset equal to the running sum of
earlier scaled thicknesses plus half the link's own scaled thickness. -/
def SortedStacked (links : List Link) (side : List Link)
    (offs : List (Link × Rat)) : Prop :=
  (sortLinksDesc side).Pairwise (fun p q => q.value ≤ p.value) ∧
  (∀ v, (sortLinksDesc side).filter (fun l => l.value = v) =
    side.filter (fun l => l.value = v)) ∧
  (∀ k l off, offs[k]? = some (l, off) →
    (sortLinksDesc side)[k]? = some l ∧
      off = (((sortLinksDesc side).take k).map
        (fun l' => linkWidthScale links l'.value)).sum +
        linkWidthScale links l.value / 2)

end Sankey

namespace Sankey.ReprFacts

/-! Facts about `Nat.repr`, needed because the source keys nodes by the string
`` `${i}_${name}` ``: the decimal digits of `i` contain no underscore and the
rendering is injective, so distinct `(layer, label)` pairs get distinct keys. -/

theorem toDigitsCore_append (f : Nat) : ∀ (n : Nat) (ds : List Char),
    Nat.toDigitsCore 10 f n ds = Nat.toDigitsCore 10 f n [] ++ ds := by
  induction f with
  | zero => intro n ds; simp [Nat.toDigitsCore]
  | succ f ih =>
    intro n ds
    simp only [Nat.toDigitsCore]
    by_cases h : n / 10 = 0
    · simp [h]
    · simp only [h, if_neg, ite_false]
      rw [ih (n / 10) (Nat.digitChar (n % 10) :: ds), ih (n / 10) [Nat.digitChar (n % 10)]]
      simp

theorem toDigitsCore_fuel (n : Nat) : ∀ f, n < f →
    Nat.toDigitsCore 10 f n [] = Nat.toDigitsCore 10 (n + 1) n [] := by
  induction n using Nat.strong_induction_on with
  | _ n ih =>
    intro f hf
    match f, hf with
    | f + 1, hf =>
      simp only [Nat.toDigitsCore]
      by_cases h : n / 10 = 0
      · simp [h]
      · simp only [h, if_neg, ite_false]
        have hn : 0 < n := by
          rcases Nat.eq_zero_or_pos n with h0 | h0
          · subst h0; simp at h
          · exact h0
        have hdiv : n / 10 < n := Nat.div_lt_self hn (by omega)
        rw [toDigitsCore_append f, toDigitsCore_append n,
          ih (n / 10) hdiv f (by omega), ih (n / 10) hdiv n (by omega)]

/-- Unfolding equation for `Nat.toDigits 10` at a multi-digit number. -/
theorem toDigits_eq_append (n : Nat) (h : n / 10 ≠ 0) :
    Nat.toDigits 10 n = Nat.toDigits 10 (n / 10) ++ [Nat.digitChar (n % 10)] := by
  show Nat.toDigitsCore 10 (n + 1) n [] = _
  rw [show Nat.toDigitsCore 10 (n + 1) n [] =
      Nat.toDigitsCore 10 n (n / 10) [Nat.digitChar (n % 10)] by
    simp only [Nat.toDigitsCore]; simp [h]]
  have hn : 0 < n := by
    rcases Nat.eq_zero_or_pos n with h0 | h0
    · subst h0; simp at h
    · exact h0
  have hdiv : n / 10 < n := Nat.div_lt_self hn (by omega)
  rw [toDigitsCore_append n, toDigitsCore_fuel (n / 10) n hdiv]
  rfl

/-- Unfolding equation for `Nat.toDigits 10` at a single-digit number. -/
theorem toDigits_eq_single (n : Nat) (h : n / 10 = 0) :
    Nat.toDigits 10 n = [Nat.digitChar (n % 10)] := by
  show Nat.toDigitsCore 10 (n + 1) n [] = _
  simp only [Nat.toDigitsCore]
  simp [h]

theorem digitChar_val (m : Nat) (h : m < 10) : (Nat.digitChar m).toNat - 48 = m := by
  interval_cases m <;> decide

theorem digitChar_isDigit (m : Nat) (h : m < 10) : (Nat.digitChar m).isDigit = true := by
  interval_cases m <;> decide

theorem toDigits_isDigit (n : Nat) : ∀ c ∈ Nat.toDigits 10 n, c.isDigit = true := by
  induction n using Nat.strong_induction_on with
  | _ n ih =>
    intro c hc
    by_cases h : n / 10 = 0
    · rw [toDigits_eq_single n h] at hc
      simp at hc
      subst hc
      exact digitChar_isDigit _ (Nat.mod_lt _ (by omega))
    · rw [toDigits_eq_append n h] at hc
      have hn : 0 < n := by
        rcases Nat.eq_zero_or_pos n with h0 | h0
        · subst h0; simp at h
        · exact h0
      rcases List.mem_append.1 hc with hc | hc
      · exact ih (n / 10) (Nat.div_lt_self hn (by omega)) c hc
      · simp at hc
        subst hc
        exact digitChar_isDigit _ (Nat.mod_lt _ (by omega))

theorem readDigits_toDigits (n : Nat) : ∀ a,
    readDigits a (Nat.toDigits 10 n) = a * 10 ^ (Nat.toDigits 10 n).length + n := by
  induction n using Nat.strong_induction_on with
  | _ n ih =>
    intro a
    by_cases h : n / 10 = 0
    · rw [toDigits_eq_single n h]
      have hv := digitChar_val (n % 10) (Nat.mod_lt _ (by omega))
      simp only [readDigits, List.foldl_cons, List.foldl_nil, List.length_cons,
        List.length_nil, pow_one, Nat.zero_add]
      omega
    · rw [toDigits_eq_append n h]
      have hn : 0 < n := by
        rcases Nat.eq_zero_or_pos n with h0 | h0
        · subst h0; simp at h
        · exact h0
      have hdiv : n / 10 < n := Nat.div_lt_self hn (by omega)
      simp only [readDigits, List.foldl_append, List.foldl_cons, List.foldl_nil,
        List.length_append, List.length_cons, List.length_nil]
      have := ih (n / 10) hdiv a
      simp only [readDigits] at this
      rw [this, digitChar_val (n % 10) (Nat.mod_lt _ (by omega))]
      have : a * 10 ^ ((Nat.toDigits 10 (n / 10)).length + (0 + 1)) =
          (a * 10 ^ (Nat.toDigits 10 (n / 10)).length) * 10 := by ring
      rw [this]
      omega

theorem toDigits_injective (m n : Nat) (h : Nat.toDigits 10 m = Nat.toDigits 10 n) :
    m = n := by
  have hm := readDigits_toDigits m 0
  have hn := readDigits_toDigits n 0
  rw [h] at hm
  simp only [Nat.zero_mul, Nat.zero_add] at hm hn
  omega

theorem repr_injective (m n : Nat) (h : Nat.repr m = Nat.repr n) : m = n := by
  apply toDigits_injective
  have : (Nat.repr m).data = (Nat.repr n).data := by rw [h]
  exact this

theorem repr_no_underscore (n : Nat) : '_' ∉ (Nat.repr n).data := by
  intro hmem
  have : ('_' : Char).isDigit = true := toDigits_isDigit n _ hmem
  simp at this

/-- Splitting a list at a separator element absent from both prefixes is
unambiguous. -/
theorem append_cons_injective {α : Type} (c : α) :
    ∀ (xs xs' ys ys' : List α), c ∉ xs → c ∉ xs' →
    xs ++ c :: ys = xs' ++ c :: ys' → xs = xs' ∧ ys = ys' := by
  intro xs
  induction xs with
  | nil =>
    intro xs' ys ys' _ hx' h
    cases xs' with
    | nil => simpa using h
    | cons x' rest =>
      simp at h
      exact absurd (h.1 ▸ List.mem_cons_self x' rest) (h.1 ▸ hx')
  | cons x rest ih =>
    intro xs' ys ys' hx hx' h
    cases xs' with
    | nil =>
      simp at h
      exact absurd (h.1 ▸ List.mem_cons_self x rest) (h.1 ▸ hx)
    | cons x' rest' =>
      simp at h
      obtain ⟨hhead, htail⟩ := h
      have hrest := ih rest' ys ys' (fun hm => hx (List.mem_cons_of_mem x hm))
        (fun hm => hx' (List.mem_cons_of_mem x' hm)) htail
      exact ⟨by rw [hhead, hrest.1], hrest.2⟩

end Sankey.ReprFacts

namespace Sankey

/-- Distinct `(layerIndex, label)` pairs always receive distinct node id
strings: the decimal prefix contains no underscore, so the first underscore
delimits the layer index unambiguously. -/
theorem nodeKey_injective (i i' : Nat) (a a' : String)
    (h : nodeKey i a = nodeKey i' a') : i = i' ∧ a = a' := by
  have hdata : (Nat.repr i).data ++ '_' :: a.data = (Nat.repr i').data ++ '_' :: a'.data := by
    have h1 : (nodeKey i a).data = (Nat.repr i).data ++ '_' :: a.data := by
      simp [nodeKey, toString]
    have h2 : (nodeKey i' a').data = (Nat.repr i').data ++ '_' :: a'.data := by
      simp [nodeKey, toString]
    rw [← h1, ← h2, h]
  have := ReprFacts.append_cons_injective '_' (Nat.repr i).data (Nat.repr i').data
    a.data a'.data (ReprFacts.repr_no_underscore i) (ReprFacts.repr_no_underscore i') hdata
  constructor
  · exact ReprFacts.repr_injective i i' (by
      have hd := this.1
      cases hr : Nat.repr i
      cases hr' : Nat.repr i'
      simp [hr, hr'] at hd
      simp [hd])
  · have hd := this.2
    cases a
    cases a'
    simp at hd
    simp [hd]

/-- Equality of node keys is exactly equality of the underlying pairs. -/
theorem nodeKey_eq_iff (i i' : Nat) (a a' : String) :
    nodeKey i a = nodeKey i' a' ↔ (i = i' ∧ a = a') := by
  constructor
  · exact nodeKey_injective i i' a a'
  · rintro ⟨rfl, rfl⟩; rfl

theorem addNode_subset (ns : List Node) (i : Nat) (a : String) :
    ∀ n ∈ ns, n ∈ addNode ns i a := by
  intro n hn
  unfold addNode
  split
  · exact hn
  · exact List.mem_append_left _ hn

theorem mem_addNode (ns : List Node) (i : Nat) (a : String) (n : Node)
    (h : n ∈ addNode ns i a) : n ∈ ns ∨ n = ⟨nodeKey i a, a, i⟩ := by
  unfold addNode at h
  split at h
  · exact Or.inl h
  · rcases List.mem_append.1 h with h | h
    · exact Or.inl h
    · simp at h
      exact Or.inr h

theorem exists_id_addNode (ns : List Node) (i : Nat) (a : String) :
    ∃ n ∈ addNode ns i a, n.id = nodeKey i a := by
  unfold addNode
  split
  · rename_i h
    rcases List.any_eq_true.1 h with ⟨n, hn, hid⟩
    exact ⟨n, hn, of_decide_eq_true hid⟩
  · exact ⟨⟨nodeKey i a, a, i⟩, List.mem_append_right _ (List.mem_singleton.2 rfl), rfl⟩

theorem addNode_wf (ns : List Node) (i : Nat) (a : String)
    (h : ∀ n ∈ ns, n.id = nodeKey n.step n.name) :
    ∀ n ∈ addNode ns i a, n.id = nodeKey n.step n.name := by
  intro n hn
  rcases mem_addNode ns i a n hn with hmem | rfl
  · exact h n hmem
  · rfl

theorem addNode_nodup (ns : List Node) (i : Nat) (a : String)
    (h : (ns.map Node.id).Nodup) : ((addNode ns i a).map Node.id).Nodup := by
  unfold addNode
  split
  · exact h
  · rename_i hany
    rw [List.map_append]
    refine List.Nodup.append h (by simp) ?_
    intro x hx hy
    simp at hy
    subst hy
    rcases List.mem_map.1 hx with ⟨n, hn, hid⟩
    rw [List.any_eq_true] at hany
    push_neg at hany
    simp at hany
    exact hany n hn hid

theorem mem_bumpFirstLink (s t : String) (c : Int) (ls : List Link) (l : Link)
    (h : l ∈ bumpFirstLink s t c ls) :
    ∃ l₀ ∈ ls, l.source = l₀.source ∧ l.target = l₀.target ∧
      (l.value = l₀.value ∨ l.value = l₀.value + c) := by
  induction ls with
  | nil => simp [bumpFirstLink] at h
  | cons y ys ih =>
    unfold bumpFirstLink at h
    split at h
    · rcases List.mem_cons.1 h with rfl | h
      · exact ⟨y, List.mem_cons_self y ys, rfl, rfl, Or.inr rfl⟩
      · exact ⟨l, List.mem_cons_of_mem y h, rfl, rfl, Or.inl rfl⟩
    · rcases List.mem_cons.1 h with rfl | h
      · exact ⟨l, List.mem_cons_self l ys, rfl, rfl, Or.inl rfl⟩
      · rcases ih h with ⟨l₀, hl₀, hrest⟩
        exact ⟨l₀, List.mem_cons_of_mem y hl₀, hrest⟩

theorem mem_addLink (ls : List Link) (s t : String) (c : Int) (l : Link)
    (h : l ∈ addLink ls s t c) :
    (∃ l₀ ∈ ls, l.source = l₀.source ∧ l.target = l₀.target ∧
      (l.value = l₀.value ∨ l.value = l₀.value + c)) ∨
      (l.source = s ∧ l.target = t ∧ l.value = c) := by
  unfold addLink at h
  split at h
  · exact Or.inl (mem_bumpFirstLink s t c ls l h)
  · rcases List.mem_append.1 h with h | h
    · exact Or.inl ⟨l, h, rfl, rfl, Or.inl rfl⟩
    · simp at h
      subst h
      exact Or.inr ⟨rfl, rfl, rfl⟩

theorem pairValue_nil (s t : String) : pairValue [] s t = 0 := rfl

theorem pairValue_cons (l : Link) (ls : List Link) (s t : String) :
    pairValue (l :: ls) s t =
      (if l.source = s ∧ l.target = t then l.value else 0) + pairValue ls s t := by
  unfold pairValue
  rw [List.filter_cons]
  by_cases h : l.source = s ∧ l.target = t
  · rw [if_pos (by simpa using h), if_pos h]
    simp
  · rw [if_neg (by simpa using h), if_neg h]
    simp

theorem pairValue_append (ls ls' : List Link) (s t : String) :
    pairValue (ls ++ ls') s t = pairValue ls s t + pairValue ls' s t := by
  unfold pairValue
  rw [List.filter_append, List.map_append, List.sum_append]

theorem bumpFirstLink_of_not_mem (s t : String) (c : Int) (ls : List Link)
    (h : ∀ l ∈ ls, ¬(l.source = s ∧ l.target = t)) :
    bumpFirstLink s t c ls = ls := by
  induction ls with
  | nil => rfl
  | cons y ys ih =>
    unfold bumpFirstLink
    rw [if_neg (h y (List.mem_cons_self y ys))]
    rw [ih (fun l hl => h l (List.mem_cons_of_mem y hl))]

theorem pairValue_bumpFirstLink (s' t' : String) (c : Int) (ls : List Link)
    (hex : ∃ l ∈ ls, l.source = s' ∧ l.target = t') (s t : String) :
    pairValue (bumpFirstLink s' t' c ls) s t =
      pairValue ls s t + (if s' = s ∧ t' = t then c else 0) := by
  induction ls with
  | nil => simp at hex
  | cons y ys ih =>
    unfold bumpFirstLink
    by_cases hy : y.source = s' ∧ y.target = t'
    · rw [if_pos hy]
      rw [pairValue_cons, pairValue_cons]
      have hcond : ({ y with value := y.value + c } : Link).source = s ∧
          ({ y with value := y.value + c } : Link).target = t ↔ y.source = s ∧ y.target = t := by
        constructor <;> exact fun h => h
      by_cases hmatch : y.source = s ∧ y.target = t
      · rw [if_pos hmatch, if_pos (hcond.2 hmatch),
          if_pos (show s' = s ∧ t' = t from
            ⟨by rw [← hy.1]; exact hmatch.1, by rw [← hy.2]; exact hmatch.2⟩)]
        ring
      · rw [if_neg hmatch, if_neg (fun h => hmatch (hcond.1 h)),
          if_neg (fun h : s' = s ∧ t' = t => hmatch
            ⟨by rw [← h.1]; exact hy.1, by rw [← h.2]; exact hy.2⟩)]
        ring
    · rw [if_neg hy]
      have hex' : ∃ l ∈ ys, l.source = s' ∧ l.target = t' := by
        rcases hex with ⟨l, hl, hprop⟩
        rcases List.mem_cons.1 hl with rfl | hl
        · exact absurd hprop hy
        · exact ⟨l, hl, hprop⟩
      rw [pairValue_cons, pairValue_cons, ih hex']
      ring

theorem pairValue_addLink (ls : List Link) (s' t' : String) (c : Int) (s t : String) :
    pairValue (addLink ls s' t' c) s t =
      pairValue ls s t + (if s' = s ∧ t' = t then c else 0) := by
  unfold addLink
  split
  · rename_i hany
    rcases List.any_eq_true.1 hany with ⟨l, hl, hprop⟩
    have hprop' : l.source = s' ∧ l.target = t' := by
      have := of_decide_eq_true hprop
      simpa using this
    exact pairValue_bumpFirstLink s' t' c ls ⟨l, hl, hprop'⟩ s t
  · rw [pairValue_append, pairValue_cons, pairValue_nil]
    simp

theorem filter_pair_bumpFirstLink (s' t' : String) (c : Int) (ls : List Link) (s t : String) :
    ((bumpFirstLink s' t' c ls).filter (fun l => l.source = s ∧ l.target = t)).length =
      (ls.filter (fun l => l.source = s ∧ l.target = t)).length := by
  induction ls with
  | nil => rfl
  | cons y ys ih =>
    unfold bumpFirstLink
    split
    · rw [List.filter_cons, List.filter_cons]
      by_cases hmatch : y.source = s ∧ y.target = t
      · rw [if_pos (by simpa using hmatch), if_pos (by simpa using hmatch)]
        simp
      · rw [if_neg (by simpa using hmatch), if_neg (by simpa using hmatch)]
    · rw [List.filter_cons, List.filter_cons]
      split
      · simpa using ih
      · exact ih

theorem addLink_pair_unique (ls : List Link) (s' t' : String) (c : Int)
    (h : ∀ s t, (ls.filter (fun l => l.source = s ∧ l.target = t)).length ≤ 1) :
    ∀ s t, ((addLink ls s' t' c).filter (fun l => l.source = s ∧ l.target = t)).length ≤ 1 := by
  intro s t
  unfold addLink
  split
  · rw [filter_pair_bumpFirstLink]
    exact h s t
  · rename_i hany
    rw [List.filter_append, List.length_append]
    have hone : (([⟨s', t', c⟩] : List Link).filter
        (fun l => l.source = s ∧ l.target = t)).length ≤ 1 := by
      have := List.length_filter_le (fun l => decide (l.source = s ∧ l.target = t))
        [(⟨s', t', c⟩ : Link)]
      simpa using this
    by_cases hmatch : s' = s ∧ t' = t
    · have hempty : (ls.filter (fun l => l.source = s ∧ l.target = t)).length = 0 := by
        rw [List.length_eq_zero, List.filter_eq_nil_iff]
        intro l hl hprop
        have hprop' : l.source = s ∧ l.target = t := by simpa using hprop
        have hnone : ∀ l₀ ∈ ls, ¬(l₀.source = s' ∧ l₀.target = t') := by
          intro l₀ hl₀ hp
          apply hany
          rw [List.any_eq_true]
          exact ⟨l₀, hl₀, by simpa using hp⟩
        exact hnone l hl ⟨by rw [hmatch.1]; exact hprop'.1, by rw [hmatch.2]; exact hprop'.2⟩
      omega
    · have hzero : (([⟨s', t', c⟩] : List Link).filter
          (fun l => l.source = s ∧ l.target = t)).length = 0 := by
        rw [List.length_eq_zero, List.filter_eq_nil_iff]
        intro l hl hprop
        simp at hl
        subst hl
        simp at hprop
        exact hmatch ⟨hprop.1, hprop.2⟩
      have hle := h s t
      omega

theorem processPath_inv (P : List Node × List Link → Prop) (c : Int)
    (hstep : ∀ i a ns ls, P (ns, ls) → P (addNode ns i a, ls))
    (hlink : ∀ i a b ns ls, P (ns, ls) →
      P (ns, addLink ls (nodeKey i a) (nodeKey (i + 1) b) c)) :
    ∀ (path : List String) (i : Nat) (st : List Node × List Link),
    P st → P (processPath c i path st) := by
  intro path
  induction path with
  | nil => intro i st h; exact h
  | cons a tail ih =>
    intro i st h
    obtain ⟨ns, ls⟩ := st
    cases tail with
    | nil => exact hstep i a ns ls h
    | cons b rest =>
      exact ih (i + 1) (addNode ns i a, addLink ls (nodeKey i a) (nodeKey (i + 1) b) c)
        (hlink i a b (addNode ns i a) ls (hstep i a ns ls h))

theorem foldl_build_inv (P : List Node × List Link → Prop) :
    ∀ (js : List Journey) (st : List Node × List Link),
    (∀ j ∈ js, ∀ st, P st → P (processPath j.count 0 j.path st)) → P st →
    P (js.foldl (fun st j => processPath j.count 0 j.path st) st) := by
  intro js
  induction js with
  | nil => intro st _ hst; exact hst
  | cons j rest ih =>
    intro st h hst
    exact ih _ (fun j' hj' => h j' (List.mem_cons_of_mem j hj'))
      (h j (List.mem_cons_self j rest) st hst)

theorem buildGraph_nodes_wf (js : List Journey) (m : Nat) :
    ∀ n ∈ (buildGraph js m).1, n.id = nodeKey n.step n.name := by
  refine foldl_build_inv (fun st => ∀ n ∈ st.1, n.id = nodeKey n.step n.name)
    (js.take m) ([], []) (fun j _ => ?_) (by simp)
  intro st hst
  exact processPath_inv (fun st => ∀ n ∈ st.1, n.id = nodeKey n.step n.name) j.count
    (fun i a ns ls h => addNode_wf ns i a h) (fun i a b ns ls h => h) j.path 0 st hst

theorem buildGraph_nodes_nodup (js : List Journey) (m : Nat) :
    ((buildGraph js m).1.map Node.id).Nodup := by
  refine foldl_build_inv (fun st => (st.1.map Node.id).Nodup)
    (js.take m) ([], []) (fun j _ => ?_) (by simp)
  intro st hst
  exact processPath_inv (fun st => (st.1.map Node.id).Nodup) j.count
    (fun i a ns ls h => addNode_nodup ns i a h) (fun i a b ns ls h => h) j.path 0 st hst

theorem buildGraph_links_unique (js : List Journey) (m : Nat) :
    ∀ s t, ((buildGraph js m).2.filter (fun l => l.source = s ∧ l.target = t)).length ≤ 1 := by
  refine foldl_build_inv
    (fun st => ∀ s t, (st.2.filter (fun l => l.source = s ∧ l.target = t)).length ≤ 1)
    (js.take m) ([], []) (fun j _ => ?_) (by simp)
  intro st hst
  exact processPath_inv
    (fun st => ∀ s t, (st.2.filter (fun l => l.source = s ∧ l.target = t)).length ≤ 1) j.count
    (fun i a ns ls h => h)
    (fun i a b ns ls h => addLink_pair_unique ls _ _ j.count h) j.path 0 st hst

theorem buildGraph_links_span (js : List Journey) (m : Nat) :
    ∀ l ∈ (buildGraph js m).2,
    ∃ i a b, l.source = nodeKey i a ∧ l.target = nodeKey (i + 1) b := by
  refine foldl_build_inv
    (fun st => ∀ l ∈ st.2, ∃ i a b, l.source = nodeKey i a ∧ l.target = nodeKey (i + 1) b)
    (js.take m) ([], []) (fun j _ => ?_) (by simp)
  intro st hst
  refine processPath_inv
    (fun st => ∀ l ∈ st.2, ∃ i a b, l.source = nodeKey i a ∧ l.target = nodeKey (i + 1) b)
    j.count (fun i a ns ls h => h) (fun i a b ns ls h => ?_) j.path 0 st hst
  intro l hl
  rcases mem_addLink ls (nodeKey i a) (nodeKey (i + 1) b) j.count l hl with
    ⟨l₀, hl₀, hs, ht, _⟩ | ⟨hs, ht, _⟩
  · rcases h l₀ hl₀ with ⟨i', a', b', hs', ht'⟩
    exact ⟨i', a', b', hs ▸ hs', ht ▸ ht'⟩
  · exact ⟨i, a, b, hs, ht⟩

theorem buildGraph_links_nonneg (js : List Journey) (m : Nat)
    (hc : ∀ j ∈ js, 0 ≤ j.count) :
    ∀ l ∈ (buildGraph js m).2, 0 ≤ l.value := by
  refine foldl_build_inv (fun st => ∀ l ∈ st.2, 0 ≤ l.value)
    (js.take m) ([], []) (fun j hj => ?_) (by simp)
  have hcj : 0 ≤ j.count := hc j (List.mem_of_mem_take hj)
  intro st hst
  refine processPath_inv (fun st => ∀ l ∈ st.2, 0 ≤ l.value) j.count
    (fun i a ns ls h => h) (fun i a b ns ls h => ?_) j.path 0 st hst
  intro l hl
  rcases mem_addLink ls (nodeKey i a) (nodeKey (i + 1) b) j.count l hl with
    ⟨l₀, hl₀, _, _, hv | hv⟩ | ⟨_, _, hv⟩
  · exact hv ▸ h l₀ hl₀
  · rw [hv]; exact add_nonneg (h l₀ hl₀) hcj
  · rw [hv]; exact hcj

theorem buildGraph_node_mono (js : List Journey) (m : Nat) (n₀ : Node) :
    ∀ (st : List Node × List Link), n₀ ∈ st.1 →
    n₀ ∈ ((js.take m).foldl (fun st j => processPath j.count 0 j.path st) st).1 := by
  intro st hst
  exact foldl_build_inv (fun st => n₀ ∈ st.1) (js.take m) st
    (fun j _ st hst => processPath_inv (fun st => n₀ ∈ st.1) j.count
      (fun i a ns ls h => addNode_subset ns i a n₀ h) (fun i a b ns ls h => h) j.path 0 st hst)
    hst

theorem exists_node_addNode (ns : List Node) (i : Nat) (a : String)
    (hwf : ∀ n ∈ ns, n.id = nodeKey n.step n.name) :
    ∃ n ∈ addNode ns i a, n.step = i ∧ n.name = a := by
  obtain ⟨n, hn, hid⟩ := exists_id_addNode ns i a
  have hwf' := addNode_wf ns i a hwf n hn
  rw [hwf'] at hid
  obtain ⟨hi, ha⟩ := nodeKey_injective _ _ _ _ hid
  exact ⟨n, hn, hi, ha⟩

theorem processPath_closed (c : Int) :
    ∀ (path : List String) (i : Nat) (ns : List Node) (ls : List Link),
    (∀ l ∈ ls, (∃ n ∈ ns, n.id = l.source) ∧
      ((∃ n ∈ ns, n.id = l.target) ∨
        (∃ nm rest, path = nm :: rest ∧ l.target = nodeKey i nm))) →
    ∀ l ∈ (processPath c i path (ns, ls)).2,
    (∃ n ∈ (processPath c i path (ns, ls)).1, n.id = l.source) ∧
      (∃ n ∈ (processPath c i path (ns, ls)).1, n.id = l.target) := by
  intro path
  induction path with
  | nil =>
    intro i ns ls h l hl
    refine ⟨(h l hl).1, ?_⟩
    rcases (h l hl).2 with h2 | ⟨nm, rest, hcontra, _⟩
    · exact h2
    · exact absurd hcontra (by simp)
  | cons x tail ih =>
    intro i ns ls h
    cases tail with
    | nil =>
      intro l hl
      simp only [processPath] at hl ⊢
      constructor
      · obtain ⟨n, hn, hid⟩ := (h l hl).1
        exact ⟨n, addNode_subset ns i x n hn, hid⟩
      · rcases (h l hl).2 with ⟨n, hn, hid⟩ | ⟨nm, rest, heq, hkey⟩
        · exact ⟨n, addNode_subset ns i x n hn, hid⟩
        · injection heq with h1 h2
          obtain ⟨n, hn, hid⟩ := exists_id_addNode ns i x
          exact ⟨n, hn, by rw [hkey, ← h1, hid]⟩
    | cons y rest' =>
      intro l hl
      simp only [processPath] at hl ⊢
      refine ih (i + 1) (addNode ns i x)
        (addLink ls (nodeKey i x) (nodeKey (i + 1) y) c) ?_ l hl
      intro l' hl'
      rcases mem_addLink ls (nodeKey i x) (nodeKey (i + 1) y) c l' hl' with
        ⟨l₀, hl₀, hs, ht, -⟩ | ⟨hs, ht, -⟩
      · constructor
        · obtain ⟨n, hn, hid⟩ := (h l₀ hl₀).1
          exact ⟨n, addNode_subset ns i x n hn, by rw [hs]; exact hid⟩
        · rcases (h l₀ hl₀).2 with ⟨n, hn, hid⟩ | ⟨nm, rest, heq, hkey⟩
          · exact Or.inl ⟨n, addNode_subset ns i x n hn, by rw [ht]; exact hid⟩
          · injection heq with h1 h2
            obtain ⟨n, hn, hid⟩ := exists_id_addNode ns i x
            exact Or.inl ⟨n, hn, by rw [ht, hkey, ← h1, hid]⟩
      · refine ⟨?_, Or.inr ⟨y, rest', rfl, ht⟩⟩
        obtain ⟨n, hn, hid⟩ := exists_id_addNode ns i x
        exact ⟨n, hn, by rw [hs, hid]⟩

theorem buildGraph_closed (js : List Journey) (m : Nat) :
    ∀ l ∈ (buildGraph js m).2,
    (∃ n ∈ (buildGraph js m).1, n.id = l.source) ∧
      (∃ n ∈ (buildGraph js m).1, n.id = l.target) := by
  refine foldl_build_inv
    (fun st => ∀ l ∈ st.2,
      (∃ n ∈ st.1, n.id = l.source) ∧ (∃ n ∈ st.1, n.id = l.target))
    (js.take m) ([], []) (fun j _ => ?_) (by simp)
  intro st hst
  obtain ⟨ns, ls⟩ := st
  exact processPath_closed j.count j.path 0 ns ls
    (fun l' hl' => ⟨(hst l' hl').1, Or.inl (hst l' hl').2⟩)

theorem processPath_mem_node (c : Int) :
    ∀ (path : List String) (i k : Nat) (a : String) (ns : List Node) (ls : List Link),
    (∀ n ∈ ns, n.id = nodeKey n.step n.name) →
    path[k]? = some a →
    ∃ n ∈ (processPath c i path (ns, ls)).1, n.step = i + k ∧ n.name = a := by
  intro path
  induction path with
  | nil => intro i k a ns ls _ hk; simp at hk
  | cons x tail ih =>
    intro i k a ns ls hwf hk
    cases tail with
    | nil =>
      cases k with
      | zero =>
        have hx : x = a := by simpa using hk
        subst hx
        simp only [processPath]
        obtain ⟨n, hn, h1, h2⟩ := exists_node_addNode ns i x hwf
        exact ⟨n, hn, by omega, h2⟩
      | succ k' => simp at hk
    | cons y rest =>
      simp only [processPath]
      cases k with
      | zero =>
        have hx : x = a := by simpa using hk
        subst hx
        obtain ⟨n, hn, h1, h2⟩ := exists_node_addNode ns i x hwf
        have hpers := processPath_inv (fun st => n ∈ st.1) c
          (fun i a ns ls h => addNode_subset ns i a n h) (fun _ _ _ _ _ h => h)
          (y :: rest) (i + 1)
          (addNode ns i x, addLink ls (nodeKey i x) (nodeKey (i + 1) y) c) hn
        exact ⟨n, hpers, by omega, h2⟩
      | succ k' =>
        have hk' : (y :: rest)[k']? = some a := by simpa using hk
        obtain ⟨n, hn, h1, h2⟩ := ih (i + 1) k' a (addNode ns i x)
          (addLink ls (nodeKey i x) (nodeKey (i + 1) y) c)
          (addNode_wf ns i x hwf) hk'
        exact ⟨n, hn, by omega, h2⟩

theorem processPath_node_occurs (c : Int) :
    ∀ (path : List String) (i : Nat) (ns : List Node) (ls : List Link) (n : Node),
    n ∈ (processPath c i path (ns, ls)).1 →
    n ∈ ns ∨ ∃ k, path[k]? = some n.name ∧ n.step = i + k := by
  intro path
  induction path with
  | nil => intro i ns ls n h; exact Or.inl h
  | cons x tail ih =>
    intro i ns ls n h
    cases tail with
    | nil =>
      simp only [processPath] at h
      rcases mem_addNode ns i x n h with h | rfl
      · exact Or.inl h
      · exact Or.inr ⟨0, by simp, by simp⟩
    | cons y rest =>
      simp only [processPath] at h
      rcases ih (i + 1) (addNode ns i x)
          (addLink ls (nodeKey i x) (nodeKey (i + 1) y) c) n h with h | ⟨k, h1, h2⟩
      · rcases mem_addNode ns i x n h with h | rfl
        · exact Or.inl h
        · exact Or.inr ⟨0, by simp, by simp⟩
      · exact Or.inr ⟨k + 1, by simpa using h1, by omega⟩

theorem foldl_node_exists (i : Nat) (a : String) :
    ∀ (js' : List Journey) (st : List Node × List Link),
    (∀ n ∈ st.1, n.id = nodeKey n.step n.name) →
    (∃ j ∈ js', j.path[i]? = some a) →
    ∃ n ∈ (js'.foldl (fun st j => processPath j.count 0 j.path st) st).1,
      n.step = i ∧ n.name = a := by
  intro js'
  induction js' with
  | nil => intro st _ hex; simp at hex
  | cons j rest ih =>
    intro st hwf hex
    rw [List.foldl_cons]
    have hwf' : ∀ n ∈ (processPath j.count 0 j.path st).1, n.id = nodeKey n.step n.name := by
      obtain ⟨ns, ls⟩ := st
      exact processPath_inv (fun st => ∀ n ∈ st.1, n.id = nodeKey n.step n.name) j.count
        (fun i a ns ls h => addNode_wf ns i a h) (fun _ _ _ _ _ h => h) j.path 0 (ns, ls) hwf
    rcases hex with ⟨j', hj', hmatch⟩
    rcases List.mem_cons.1 hj' with rfl | hj'
    · obtain ⟨ns, ls⟩ := st
      obtain ⟨n, hn, h1, h2⟩ := processPath_mem_node j'.count j'.path 0 i a ns ls hwf hmatch
      have hpers := foldl_build_inv (fun st => n ∈ st.1) rest
        (processPath j'.count 0 j'.path (ns, ls))
        (fun j'' _ st hst => processPath_inv (fun st => n ∈ st.1) j''.count
          (fun i a ns ls h => addNode_subset ns i a n h) (fun _ _ _ _ _ h => h)
          j''.path 0 st hst) hn
      exact ⟨n, hpers, by omega, h2⟩
    · exact ih (processPath j.count 0 j.path st) hwf' ⟨j', hj', hmatch⟩

theorem buildGraph_node_exists (js : List Journey) (m : Nat) (i : Nat) (a : String)
    (h : pairOccurs js m i a) :
    ∃ n ∈ (buildGraph js m).1, n.step = i ∧ n.name = a := by
  unfold pairOccurs at h
  exact foldl_node_exists i a (js.take m) ([], []) (by simp) h

theorem buildGraph_node_occurs (js : List Journey) (m : Nat) :
    ∀ n ∈ (buildGraph js m).1, pairOccurs js m n.step n.name := by
  refine foldl_build_inv (fun st => ∀ n ∈ st.1, pairOccurs js m n.step n.name)
    (js.take m) ([], []) (fun j hj => ?_) (by simp)
  intro st hst
  obtain ⟨ns, ls⟩ := st
  intro n hn
  rcases processPath_node_occurs j.count j.path 0 ns ls n hn with h | ⟨k, h1, h2⟩
  · exact hst n h
  · have hk : n.step = k := by omega
    exact ⟨j, hj, by rw [hk]; exact h1⟩

theorem nodup_map_filter_le_one {α β : Type} [DecidableEq β] (f : α → β) :
    ∀ (l : List α), (l.map f).Nodup → ∀ p : β, (l.filter (fun x => f x = p)).length ≤ 1 := by
  intro l
  induction l with
  | nil => intro _ p; simp
  | cons x xs ih =>
    intro h p
    rw [List.map_cons, List.nodup_cons] at h
    rw [List.filter_cons]
    by_cases hx : f x = p
    · rw [if_pos (by simpa using hx)]
      have hz : (xs.filter (fun x => f x = p)).length = 0 := by
        rw [List.length_eq_zero, List.filter_eq_nil_iff]
        intro y hy hyp
        have hfy : f y = p := by simpa using hyp
        exact h.1 (List.mem_map.2 ⟨y, hy, by rw [hfy, hx]⟩)
      simp [hz]
    · rw [if_neg (by simpa using hx)]
      exact ih h.2 p

theorem buildGraph_pairs_nodup (js : List Journey) (m : Nat) :
    ((buildGraph js m).1.map (fun n => (n.step, n.name))).Nodup := by
  have hids := buildGraph_nodes_nodup js m
  have hwf := buildGraph_nodes_wf js m
  have hnodes : (buildGraph js m).1.Nodup := List.Nodup.of_map _ hids
  refine List.Nodup.map_on ?_ hnodes
  intro x hx y hy hxy
  have hid : x.id = y.id := by
    rw [hwf x hx, hwf y hy]
    rw [Prod.mk.injEq] at hxy
    rw [hxy.1, hxy.2]
  exact List.inj_on_of_nodup_map hids hx hy hid

theorem buildGraph_node_count (js : List Journey) (m : Nat) (i : Nat) (a : String) :
    ((buildGraph js m).1.filter (fun n => n.step = i ∧ n.name = a)).length =
      if pairOccurs js m i a then 1 else 0 := by
  have hle : ((buildGraph js m).1.filter (fun n => n.step = i ∧ n.name = a)).length ≤ 1 := by
    have hkey := nodup_map_filter_le_one (fun n => (n.step, n.name)) (buildGraph js m).1
      (buildGraph_pairs_nodup js m) (i, a)
    have heq : (buildGraph js m).1.filter (fun n => n.step = i ∧ n.name = a) =
        (buildGraph js m).1.filter (fun n => (n.step, n.name) = (i, a)) := by
      apply List.filter_congr
      intro n _
      simp [Prod.ext_iff]
    rw [heq]
    exact hkey
  split
  · rename_i hocc
    obtain ⟨n, hn, h1, h2⟩ := buildGraph_node_exists js m i a hocc
    have hmem : n ∈ (buildGraph js m).1.filter (fun n => n.step = i ∧ n.name = a) :=
      List.mem_filter.2 ⟨hn, by simp [h1, h2]⟩
    have hpos := List.length_pos.2 (List.ne_nil_of_mem hmem)
    omega
  · rename_i hocc
    rw [List.length_eq_zero, List.filter_eq_nil_iff]
    intro n hn hp
    have hp' : n.step = i ∧ n.name = a := by simpa using hp
    have hocc' := buildGraph_node_occurs js m n hn
    rw [hp'.1, hp'.2] at hocc'
    exact hocc hocc'

theorem processPath_pairValue_lt (c : Int) :
    ∀ (path : List String) (i₀ j : Nat) (a b : String) (ns : List Node) (ls : List Link),
    j < i₀ →
    pairValue (processPath c i₀ path (ns, ls)).2 (nodeKey j a) (nodeKey (j + 1) b) =
      pairValue ls (nodeKey j a) (nodeKey (j + 1) b) := by
  intro path
  induction path with
  | nil => intro i₀ j a b ns ls _; rfl
  | cons x tail ih =>
    intro i₀ j a b ns ls hj
    cases tail with
    | nil => rfl
    | cons y rest =>
      simp only [processPath]
      rw [ih (i₀ + 1) j a b _ _ (by omega), pairValue_addLink, if_neg]
      · ring
      · rintro ⟨h1, -⟩
        exact absurd (nodeKey_injective _ _ _ _ h1).1 (by omega)

theorem processPath_pairValue (c : Int) :
    ∀ (path : List String) (i₀ k : Nat) (a b : String) (ns : List Node) (ls : List Link),
    pairValue (processPath c i₀ path (ns, ls)).2 (nodeKey (i₀ + k) a) (nodeKey (i₀ + k + 1) b) =
      pairValue ls (nodeKey (i₀ + k) a) (nodeKey (i₀ + k + 1) b) +
        (if path[k]? = some a ∧ path[k + 1]? = some b then c else 0) := by
  intro path
  induction path with
  | nil =>
    intro i₀ k a b ns ls
    simp [processPath]
  | cons x tail ih =>
    intro i₀ k a b ns ls
    cases tail with
    | nil =>
      have hnone : ([x] : List String)[k + 1]? = none := by
        rw [List.getElem?_eq_none]
        simp
      simp only [processPath, hnone]
      simp
    | cons y rest =>
      simp only [processPath]
      cases k with
      | zero =>
        rw [processPath_pairValue_lt c (y :: rest) (i₀ + 1) (i₀ + 0) a b _ _ (by omega),
          pairValue_addLink]
        congr 1
        have hc1 : (nodeKey i₀ x = nodeKey (i₀ + 0) a ∧
            nodeKey (i₀ + 1) y = nodeKey (i₀ + 0 + 1) b) ↔ (x = a ∧ y = b) := by
          rw [nodeKey_eq_iff, nodeKey_eq_iff]
          constructor
          · rintro ⟨⟨-, h1⟩, -, h2⟩
            exact ⟨h1, h2⟩
          · rintro ⟨h1, h2⟩
            exact ⟨⟨by omega, h1⟩, by omega, h2⟩
        have hc2 : ((x :: y :: rest : List String)[0]? = some a ∧
            (x :: y :: rest : List String)[0 + 1]? = some b) ↔ (x = a ∧ y = b) := by
          simp
        rw [if_congr (hc1.trans hc2.symm) rfl rfl]
      | succ k' =>
        have harg1 : i₀ + (k' + 1) = i₀ + 1 + k' := by omega
        rw [harg1, ih (i₀ + 1) k' a b, pairValue_addLink,
          if_neg (show ¬(nodeKey i₀ x = nodeKey (i₀ + 1 + k') a ∧
              nodeKey (i₀ + 1) y = nodeKey (i₀ + 1 + k' + 1) b) by
            rintro ⟨h1, -⟩
            have := (nodeKey_injective _ _ _ _ h1).1
            omega)]
        have e1 : ((x :: y :: rest) : List String)[k' + 1]? = (y :: rest)[k']? := by simp
        have e2 : ((x :: y :: rest) : List String)[k' + 1 + 1]? = (y :: rest)[k' + 1]? := by
          simp
        rw [e1, e2]
        ring

theorem foldl_pairValue (i : Nat) (a b : String) :
    ∀ (js' : List Journey) (st : List Node × List Link),
    pairValue ((js'.foldl (fun st j => processPath j.count 0 j.path st) st)).2
        (nodeKey i a) (nodeKey (i + 1) b) =
      pairValue st.2 (nodeKey i a) (nodeKey (i + 1) b) +
        (js'.map (fun j =>
          if j.path[i]? = some a ∧ j.path[i + 1]? = some b then j.count else 0)).sum := by
  intro js'
  induction js' with
  | nil => intro st; simp
  | cons j rest ih =>
    intro st
    rw [List.foldl_cons, ih]
    obtain ⟨ns, ls⟩ := st
    have hstep := processPath_pairValue j.count j.path 0 i a b ns ls
    rw [Nat.zero_add] at hstep
    rw [hstep, List.map_cons, List.sum_cons]
    ring

theorem buildGraph_pairValue (js : List Journey) (m : Nat) (i : Nat) (a b : String) :
    pairValue (buildGraph js m).2 (nodeKey i a) (nodeKey (i + 1) b) =
      ((js.take m).map (fun j =>
        if j.path[i]? = some a ∧ j.path[i + 1]? = some b then j.count else 0)).sum := by
  have := foldl_pairValue i a b (js.take m) ([], [])
  simpa [pairValue] using this

theorem pushOutgoing_map (l : Link) (lsIn lsOut : List Link) :
    ∀ (ns : List Node), (ns.map Node.id).Nodup →
    pushOutgoing l (ns.map (attachNode lsIn lsOut)) =
      ns.map (attachNode lsIn (lsOut ++ [l])) := by
  intro ns
  induction ns with
  | nil => intro h; rfl
  | cons n rest ih =>
    intro h
    rw [List.map_cons, List.nodup_cons] at h
    rw [List.map_cons, List.map_cons]
    unfold pushOutgoing
    by_cases hid : n.id = l.source
    · rw [if_pos (show (attachNode lsIn lsOut n).id = l.source from hid)]
      congr 1
      · simp only [attachNode, List.filter_append]
        have : ([l].filter (fun l' => l'.source = n.id)) = [l] := by
          simp [hid.symm]
        rw [this]
      · apply List.map_congr_left
        intro n' hn'
        simp only [attachNode, List.filter_append]
        have : ([l].filter (fun l' => l'.source = n'.id)) = [] := by
          simp
          intro hcontra
          exact h.1 (List.mem_map.2 ⟨n', hn', by rw [← hcontra, ← hid]⟩)
        rw [this, List.append_nil]
    · rw [if_neg (show ¬(attachNode lsIn lsOut n).id = l.source from hid)]
      congr 1
      · simp only [attachNode, List.filter_append]
        have : ([l].filter (fun l' => l'.source = n.id)) = [] := by
          simp
          intro hcontra
          exact hid hcontra.symm
        rw [this, List.append_nil]
      · exact ih h.2

theorem pushIncoming_map (l : Link) (lsIn lsOut : List Link) :
    ∀ (ns : List Node), (ns.map Node.id).Nodup →
    pushIncoming l (ns.map (attachNode lsIn lsOut)) =
      ns.map (attachNode (lsIn ++ [l]) lsOut) := by
  intro ns
  induction ns with
  | nil => intro h; rfl
  | cons n rest ih =>
    intro h
    rw [List.map_cons, List.nodup_cons] at h
    rw [List.map_cons, List.map_cons]
    unfold pushIncoming
    by_cases hid : n.id = l.target
    · rw [if_pos (show (attachNode lsIn lsOut n).id = l.target from hid)]
      congr 1
      · simp only [attachNode, List.filter_append]
        have : ([l].filter (fun l' => l'.target = n.id)) = [l] := by
          simp [hid.symm]
        rw [this]
      · apply List.map_congr_left
        intro n' hn'
        simp only [attachNode, List.filter_append]
        have : ([l].filter (fun l' => l'.target = n'.id)) = [] := by
          simp
          intro hcontra
          exact h.1 (List.mem_map.2 ⟨n', hn', by rw [← hcontra, ← hid]⟩)
        rw [this, List.append_nil]
    · rw [if_neg (show ¬(attachNode lsIn lsOut n).id = l.target from hid)]
      congr 1
      · simp only [attachNode, List.filter_append]
        have : ([l].filter (fun l' => l'.target = n.id)) = [] := by
          simp
          intro hcontra
          exact hid hcontra.symm
        rw [this, List.append_nil]
      · exact ih h.2

theorem attach_foldl (ns : List Node) (h : (ns.map Node.id).Nodup) :
    ∀ (ls' : List Link) (done : List Link),
    ls'.foldl (fun bns l => pushIncoming l (pushOutgoing l bns))
        (ns.map (attachNode done done)) =
      ns.map (attachNode (done ++ ls') (done ++ ls')) := by
  intro ls'
  induction ls' with
  | nil => intro done; simp
  | cons l rest ih =>
    intro done
    rw [List.foldl_cons, pushOutgoing_map l done done ns h,
      pushIncoming_map l done (done ++ [l]) ns h, ih (done ++ [l])]
    simp

theorem attachLinks_spec (ns : List Node) (ls : List Link)
    (h : (ns.map Node.id).Nodup) :
    attachLinks ns ls = ns.map (attachNode ls ls) := by
  unfold attachLinks
  have hinit : ns.map (fun n => (⟨n.id, n.name, n.step, [], []⟩ : BNode)) =
      ns.map (attachNode ([] : List Link) ([] : List Link)) := by
    apply List.map_congr_left
    intro n _
    simp [attachNode]
  rw [hinit, attach_foldl ns h ls []]
  simp

theorem attachLinks_fields (ns : List Node) (ls : List Link)
    (h : (ns.map Node.id).Nodup) :
    ∀ bn ∈ attachLinks ns ls,
    bn.incomingLinks = ls.filter (fun l => l.target = bn.id) ∧
      bn.outgoingLinks = ls.filter (fun l => l.source = bn.id) := by
  rw [attachLinks_spec ns ls h]
  intro bn hbn
  rcases List.mem_map.1 hbn with ⟨n, hn, rfl⟩
  exact ⟨rfl, rfl⟩

theorem mem_insertLinkDesc (x z : Link) :
    ∀ (ls : List Link), z ∈ insertLinkDesc x ls ↔ z = x ∨ z ∈ ls := by
  intro ls
  induction ls with
  | nil => simp [insertLinkDesc]
  | cons y ys ih =>
    unfold insertLinkDesc
    split
    · rw [List.mem_cons, ih]
      constructor
      · rintro (rfl | h | h)
        · exact Or.inr (List.mem_cons_self z ys)
        · exact Or.inl h
        · exact Or.inr (List.mem_cons_of_mem y h)
      · rintro (h | h)
        · exact Or.inr (Or.inl h)
        · rcases List.mem_cons.1 h with rfl | h
          · exact Or.inl rfl
          · exact Or.inr (Or.inr h)
    · rw [List.mem_cons, List.mem_cons]

theorem insertLinkDesc_pairwise (x : Link) :
    ∀ (ls : List Link), ls.Pairwise (fun p q => q.value ≤ p.value) →
    (insertLinkDesc x ls).Pairwise (fun p q => q.value ≤ p.value) := by
  intro ls
  induction ls with
  | nil => intro _; simp [insertLinkDesc]
  | cons y ys ih =>
    intro h
    have h' := List.pairwise_cons.1 h
    unfold insertLinkDesc
    by_cases hv : x.value < y.value
    · rw [if_pos hv]
      rw [List.pairwise_cons]
      constructor
      · intro z hz
        rcases (mem_insertLinkDesc x z ys).1 hz with rfl | hz
        · omega
        · exact h'.1 z hz
      · exact ih h'.2
    · rw [if_neg hv]
      rw [List.pairwise_cons]
      constructor
      · intro z hz
        rcases List.mem_cons.1 hz with rfl | hz
        · omega
        · exact le_trans (h'.1 z hz) (by omega)
      · exact h

theorem sortLinksDesc_pairwise :
    ∀ (ls : List Link), (sortLinksDesc ls).Pairwise (fun p q => q.value ≤ p.value) := by
  intro ls
  induction ls with
  | nil => simp [sortLinksDesc]
  | cons x xs ih => exact insertLinkDesc_pairwise x (sortLinksDesc xs) ih

theorem filter_insertLinkDesc (x : Link) (v : Int) :
    ∀ (ls : List Link), (insertLinkDesc x ls).filter (fun l => l.value = v) =
      if x.value = v then x :: ls.filter (fun l => l.value = v)
      else ls.filter (fun l => l.value = v) := by
  intro ls
  induction ls with
  | nil =>
    unfold insertLinkDesc
    rw [List.filter_cons]
    by_cases hx : x.value = v
    · rw [if_pos (by simpa using hx), if_pos hx]
    · rw [if_neg (by simpa using hx), if_neg hx]
  | cons y ys ih =>
    unfold insertLinkDesc
    by_cases hv : x.value < y.value
    · rw [if_pos hv]
      by_cases hy : y.value = v
      · have hx : ¬x.value = v := by omega
        simp only [List.filter_cons, ih]
        simp [hx, hy]
      · simp only [List.filter_cons, ih]
        simp [hy]
    · rw [if_neg hv]
      by_cases hx : x.value = v
      · simp [List.filter_cons, hx]
      · simp [List.filter_cons, hx]

theorem sortLinksDesc_stable (v : Int) :
    ∀ (ls : List Link), (sortLinksDesc ls).filter (fun l => l.value = v) =
      ls.filter (fun l => l.value = v) := by
  intro ls
  induction ls with
  | nil => rfl
  | cons x xs ih =>
    show (insertLinkDesc x (sortLinksDesc xs)).filter (fun l => l.value = v) = _
    rw [filter_insertLinkDesc, List.filter_cons]
    by_cases hx : x.value = v
    · rw [if_pos hx, if_pos (by simpa using hx), ih]
    · rw [if_neg hx, if_neg (by simpa using hx), ih]

theorem stackOffsets_get (links : List Link) :
    ∀ (ls : List Link) (s : Rat) (k : Nat) (l : Link) (off : Rat),
    (stackOffsets links s ls)[k]? = some (l, off) →
    ls[k]? = some l ∧
      off = s + ((ls.take k).map (fun l' => linkWidthScale links l'.value)).sum +
        linkWidthScale links l.value / 2 := by
  intro ls
  induction ls with
  | nil => intro s k l off h; simp [stackOffsets] at h
  | cons x xs ih =>
    intro s k l off h
    cases k with
    | zero =>
      simp only [stackOffsets, List.getElem?_cons_zero, Option.some.injEq, Prod.mk.injEq] at h
      obtain ⟨rfl, rfl⟩ := h
      refine ⟨by simp, ?_⟩
      simp
    | succ k' =>
      simp only [stackOffsets, List.getElem?_cons_succ] at h
      obtain ⟨h1, h2⟩ := ih (s + linkWidthScale links x.value) k' l off h
      refine ⟨by simpa using h1, ?_⟩
      rw [h2, List.take_succ_cons, List.map_cons, List.sum_cons]
      ring

theorem stackOffsets_length (links : List Link) :
    ∀ (ls : List Link) (s : Rat), (stackOffsets links s ls).length = ls.length := by
  intro ls
  induction ls with
  | nil => intro s; rfl
  | cons x xs ih => intro s; simp only [stackOffsets, List.length_cons, ih]

theorem length_filter_notmem_mono {α : Type} [DecidableEq α] (x : α) (visited : List α) :
    ∀ (us : List α),
    (us.filter (fun s => s ∉ x :: visited)).length ≤
      (us.filter (fun s => s ∉ visited)).length := by
  intro us
  induction us with
  | nil => simp
  | cons u us ih =>
    rw [List.filter_cons, List.filter_cons]
    by_cases h1 : u ∈ x :: visited
    · rw [if_neg (by intro hc; exact absurd h1 (of_decide_eq_true hc))]
      by_cases h2 : u ∈ visited
      · rw [if_neg (by intro hc; exact absurd h2 (of_decide_eq_true hc))]
        exact ih
      · rw [if_pos (decide_eq_true h2)]
        simp only [List.length_cons]
        omega
    · have h2 : u ∉ visited := fun hm => h1 (List.mem_cons_of_mem x hm)
      rw [if_pos (decide_eq_true h1), if_pos (decide_eq_true h2)]
      simp only [List.length_cons]
      omega

theorem length_filter_cons_lt {α : Type} [DecidableEq α] (x : α) (visited : List α) :
    ∀ (us : List α), x ∈ us → x ∉ visited →
    (us.filter (fun s => s ∉ x :: visited)).length <
      (us.filter (fun s => s ∉ visited)).length := by
  intro us
  induction us with
  | nil => intro h _; simp at h
  | cons u us ih =>
    intro hx hxv
    rw [List.filter_cons, List.filter_cons]
    rcases List.mem_cons.1 hx with rfl | hx
    · rw [if_neg (by intro hc; exact absurd (List.mem_cons_self x visited) (of_decide_eq_true hc)),
        if_pos (decide_eq_true hxv)]
      have := length_filter_notmem_mono x visited us
      simp only [List.length_cons]
      omega
    · by_cases h1 : u ∈ x :: visited
      · rw [if_neg (by intro hc; exact absurd h1 (of_decide_eq_true hc))]
        by_cases h2 : u ∈ visited
        · rw [if_neg (by intro hc; exact absurd h2 (of_decide_eq_true hc))]
          exact ih hx hxv
        · rw [if_pos (decide_eq_true h2)]
          have := length_filter_notmem_mono x visited us
          simp only [List.length_cons]
          omega
      · have h2 : u ∉ visited := fun hm => h1 (List.mem_cons_of_mem x hm)
        rw [if_pos (decide_eq_true h1), if_pos (decide_eq_true h2)]
        have := ih hx hxv
        simp only [List.length_cons]
        omega

theorem bfsAux_some (bnodes : List BNode) (dir : Direction) (uni : List String) (B : Nat)
    (hnext_id : ∀ x y, y ∈ nextLinks bnodes dir x → linkId y ∈ uni)
    (hnext_len : ∀ x, (nextLinks bnodes dir x).length ≤ B) :
    ∀ (fuel : Nat) (queue : List Link) (visited : List String) (acc : List Link),
    (∀ x ∈ queue, linkId x ∈ uni) →
    (uni.filter (fun s => s ∉ visited)).length * (B + 1) + queue.length < fuel →
    ∃ r, bfsAux bnodes dir fuel queue visited acc = some r := by
  intro fuel
  induction fuel with
  | zero => intro queue visited acc _ hf; omega
  | succ fuel ih =>
    intro queue visited acc hq hf
    cases queue with
    | nil => exact ⟨acc, rfl⟩
    | cons l qs =>
      simp only [bfsAux]
      by_cases hv : linkId l ∈ visited
      · rw [if_pos hv]
        apply ih qs visited acc (fun x hx => hq x (List.mem_cons_of_mem l hx))
        simp only [List.length_cons] at hf
        omega
      · rw [if_neg hv]
        refine ih (qs ++ nextLinks bnodes dir l) (linkId l :: visited) (acc ++ [l]) ?_ ?_
        · intro x hx
          rcases List.mem_append.1 hx with hx | hx
          · exact hq x (List.mem_cons_of_mem l hx)
          · exact hnext_id l x hx
        · have hdec := length_filter_cons_lt (linkId l) visited uni
            (hq l (List.mem_cons_self l qs)) hv
          have hlen : (qs ++ nextLinks bnodes dir l).length ≤ qs.length + B := by
            rw [List.length_append]
            have := hnext_len l
            omega
          have hdec' : (uni.filter (fun s => s ∉ linkId l :: visited)).length + 1 ≤
              (uni.filter (fun s => s ∉ visited)).length := by omega
          have hmul : ((uni.filter (fun s => s ∉ linkId l :: visited)).length + 1) * (B + 1) ≤
              (uni.filter (fun s => s ∉ visited)).length * (B + 1) :=
            Nat.mul_le_mul_right _ hdec'
          rw [Nat.succ_mul] at hmul
          simp only [List.length_cons] at hf
          omega

theorem bfsAux_mem (bnodes : List BNode) (dir : Direction) (P : Link → Prop)
    (hclosed : ∀ x y, P x → y ∈ nextLinks bnodes dir x → P y) :
    ∀ (fuel : Nat) (queue : List Link) (visited : List String) (acc r : List Link),
    bfsAux bnodes dir fuel queue visited acc = some r →
    (∀ x ∈ queue, P x) → (∀ x ∈ acc, P x) → ∀ x ∈ r, P x := by
  intro fuel
  induction fuel with
  | zero =>
    intro queue visited acc r h hq ha
    cases queue with
    | nil =>
      simp only [bfsAux, Option.some.injEq] at h
      subst h
      exact ha
    | cons l qs => simp [bfsAux] at h
  | succ fuel ih =>
    intro queue visited acc r h hq ha
    cases queue with
    | nil =>
      simp only [bfsAux, Option.some.injEq] at h
      subst h
      exact ha
    | cons l qs =>
      simp only [bfsAux] at h
      by_cases hv : linkId l ∈ visited
      · rw [if_pos hv] at h
        exact ih qs visited acc r h (fun x hx => hq x (List.mem_cons_of_mem l hx)) ha
      · rw [if_neg hv] at h
        refine ih _ _ _ r h ?_ ?_
        · intro x hx
          rcases List.mem_append.1 hx with hx | hx
          · exact hq x (List.mem_cons_of_mem l hx)
          · exact hclosed l x (hq l (List.mem_cons_self l qs)) hx
        · intro x hx
          rcases List.mem_append.1 hx with hx | hx
          · exact ha x hx
          · simp at hx
            rw [hx]
            exact hq l (List.mem_cons_self l qs)

theorem bfsAux_nodup (bnodes : List BNode) (dir : Direction) :
    ∀ (fuel : Nat) (queue : List Link) (visited : List String) (acc r : List Link),
    bfsAux bnodes dir fuel queue visited acc = some r →
    (acc.map linkId).Nodup → (∀ x ∈ acc, linkId x ∈ visited) →
    (r.map linkId).Nodup := by
  intro fuel
  induction fuel with
  | zero =>
    intro queue visited acc r h hacc hav
    cases queue with
    | nil =>
      simp only [bfsAux, Option.some.injEq] at h
      subst h
      exact hacc
    | cons l qs => simp [bfsAux] at h
  | succ fuel ih =>
    intro queue visited acc r h hacc hav
    cases queue with
    | nil =>
      simp only [bfsAux, Option.some.injEq] at h
      subst h
      exact hacc
    | cons l qs =>
      simp only [bfsAux] at h
      by_cases hv : linkId l ∈ visited
      · rw [if_pos hv] at h
        exact ih qs visited acc r h hacc hav
      · rw [if_neg hv] at h
        refine ih _ _ _ r h ?_ ?_
        · rw [List.map_append]
          refine List.Nodup.append hacc (by simp) ?_
          intro a haa hb
          simp at hb
          subst hb
          rcases List.mem_map.1 haa with ⟨x, hx, hxid⟩
          exact hv (hxid ▸ hav x hx)
        · intro x hx
          rcases List.mem_append.1 hx with hx | hx
          · exact List.mem_cons_of_mem _ (hav x hx)
          · simp at hx
            subst hx
            exact List.mem_cons_self _ _

theorem nextLinks_mem (ns : List Node) (ls : List Link)
    (h : (ns.map Node.id).Nodup) (dir : Direction) (l y : Link)
    (hy : y ∈ nextLinks (attachLinks ns ls) dir l) :
    y ∈ ls ∧ sharesEndpoint l y := by
  cases dir with
  | forward =>
    simp only [nextLinks] at hy
    cases hfind : (attachLinks ns ls).find? (fun n => n.id = l.target) with
    | none =>
      rw [hfind] at hy
      simp at hy
    | some n =>
      rw [hfind] at hy
      change y ∈ n.outgoingLinks at hy
      have hn := List.mem_of_find?_eq_some hfind
      have hid : n.id = l.target := by simpa using List.find?_some hfind
      rw [(attachLinks_fields ns ls h n hn).2] at hy
      refine ⟨List.mem_of_mem_filter hy, ?_⟩
      have hsrc : y.source = n.id := by simpa using List.of_mem_filter hy
      unfold sharesEndpoint
      exact Or.inr (Or.inr (Or.inl (by rw [hsrc, hid])))
  | backward =>
    simp only [nextLinks] at hy
    cases hfind : (attachLinks ns ls).find? (fun n => n.id = l.source) with
    | none =>
      rw [hfind] at hy
      simp at hy
    | some n =>
      rw [hfind] at hy
      change y ∈ n.incomingLinks at hy
      have hn := List.mem_of_find?_eq_some hfind
      have hid : n.id = l.source := by simpa using List.find?_some hfind
      rw [(attachLinks_fields ns ls h n hn).1] at hy
      refine ⟨List.mem_of_mem_filter hy, ?_⟩
      have htgt : y.target = n.id := by simpa using List.of_mem_filter hy
      unfold sharesEndpoint
      exact Or.inr (Or.inl (by rw [htgt, hid]))

theorem nextLinks_length_le (ns : List Node) (ls : List Link)
    (h : (ns.map Node.id).Nodup) (dir : Direction) (l : Link) :
    (nextLinks (attachLinks ns ls) dir l).length ≤ ls.length := by
  cases dir with
  | forward =>
    simp only [nextLinks]
    cases hfind : (attachLinks ns ls).find? (fun n => n.id = l.target) with
    | none => simp
    | some n =>
      have hn := List.mem_of_find?_eq_some hfind
      show n.outgoingLinks.length ≤ ls.length
      rw [(attachLinks_fields ns ls h n hn).2]
      exact List.length_filter_le _ _
  | backward =>
    simp only [nextLinks]
    cases hfind : (attachLinks ns ls).find? (fun n => n.id = l.source) with
    | none => simp
    | some n =>
      have hn := List.mem_of_find?_eq_some hfind
      show n.incomingLinks.length ≤ ls.length
      rw [(attachLinks_fields ns ls h n hn).1]
      exact List.length_filter_le _ _

theorem findAllConnectedPaths_spec (ns : List Node) (ls : List Link)
    (hnodup : (ns.map Node.id).Nodup) (startLink : Link) (dir : Direction)
    (hstart : startLink ∈ ls) :
    ∃ r, findAllConnectedPaths (attachLinks ns ls) ls startLink dir = some r ∧
      (∀ x ∈ r, x ∈ ls) ∧
      (r.map (fun x => (x.source, x.target))).Nodup ∧
      r.length ≤ ls.length := by
  obtain ⟨r, hr⟩ := bfsAux_some (attachLinks ns ls) dir (ls.map linkId) ls.length
    (fun x y hy => List.mem_map.2 ⟨y, (nextLinks_mem ns ls hnodup dir x y hy).1, rfl⟩)
    (fun x => nextLinks_length_le ns ls hnodup dir x)
    (bfsFuel ls) [startLink] [] []
    (by
      intro x hx
      simp at hx
      rw [hx]
      exact List.mem_map.2 ⟨startLink, hstart, rfl⟩)
    (by
      have hfull : ((ls.map linkId).filter (fun s => s ∉ ([] : List String))) =
          ls.map linkId := List.filter_eq_self.2 (fun a _ => by simp)
      rw [hfull, List.length_map, List.length_singleton]
      unfold bfsFuel
      have hsq : (ls.length + 1) * (ls.length + 1) =
          ls.length * (ls.length + 1) + (ls.length + 1) := by ring
      omega)
  have hmem := bfsAux_mem (attachLinks ns ls) dir (fun x => x ∈ ls)
    (fun x y _ hy => (nextLinks_mem ns ls hnodup dir x y hy).1)
    (bfsFuel ls) [startLink] [] [] r hr
    (by
      intro x hx
      simp at hx
      rw [hx]
      exact hstart)
    (by simp)
  have hnd := bfsAux_nodup (attachLinks ns ls) dir (bfsFuel ls) [startLink] [] [] r hr
    (by simp) (by simp)
  have hcomp : r.map linkId =
      (r.map (fun x => (x.source, x.target))).map (fun p => p.1 ++ "|||" ++ p.2) := by
    rw [List.map_map]
    rfl
  have hpairs : (r.map (fun x => (x.source, x.target))).Nodup :=
    List.Nodup.of_map _ (hcomp ▸ hnd)
  refine ⟨r, hr, hmem, hpairs, ?_⟩
  have hsub : r.map linkId ⊆ ls.map linkId := by
    intro s hs
    rcases List.mem_map.1 hs with ⟨x, hx, rfl⟩
    exact List.mem_map.2 ⟨x, hmem x hx, rfl⟩
  have hsp := List.Nodup.subperm hnd hsub
  have := hsp.length_le
  simpa using this

theorem findAll_getD_sound (ns : List Node) (ls : List Link)
    (hnodup : (ns.map Node.id).Nodup) (nodeId : String) (d : Link) (dir : Direction)
    (hd : WeaklyConnected ls nodeId d) :
    ∀ x ∈ (findAllConnectedPaths (attachLinks ns ls) ls d dir).getD [],
    WeaklyConnected ls nodeId x := by
  cases h : findAllConnectedPaths (attachLinks ns ls) ls d dir with
  | none => simp
  | some r =>
    simp only [Option.getD_some]
    exact bfsAux_mem (attachLinks ns ls) dir (WeaklyConnected ls nodeId)
      (fun x y hx hy => WeaklyConnected.step x y hx
        (nextLinks_mem ns ls hnodup dir x y hy).1 (nextLinks_mem ns ls hnodup dir x y hy).2)
      (bfsFuel ls) [d] [] [] r h
      (by
        intro x hx
        simp at hx
        rw [hx]
        exact hd)
      (by simp)

theorem hoverConnectedLinks_sound (ns : List Node) (ls : List Link)
    (hnodup : (ns.map Node.id).Nodup) (nodeId : String) :
    ∀ x ∈ hoverConnectedLinks (attachLinks ns ls) ls nodeId,
    WeaklyConnected ls nodeId x := by
  unfold hoverConnectedLinks
  suffices h : ∀ (ds : List Link), (∀ d ∈ ds, d ∈ ls ∧ touchesNode d nodeId) →
      ∀ (acc : List Link), (∀ x ∈ acc, WeaklyConnected ls nodeId x) →
      ∀ x ∈ ds.foldl (fun acc l =>
        acc ++ l :: ((findAllConnectedPaths (attachLinks ns ls) ls l .forward).getD [] ++
          (findAllConnectedPaths (attachLinks ns ls) ls l .backward).getD [])) acc,
      WeaklyConnected ls nodeId x by
    apply h
    · intro d hd
      refine ⟨List.mem_of_mem_filter hd, ?_⟩
      have := List.of_mem_filter hd
      unfold touchesNode
      simpa using this
    · simp
  intro ds
  induction ds with
  | nil =>
    intro _ acc hacc x hx
    exact hacc x hx
  | cons d rest ih =>
    intro hds acc hacc
    rw [List.foldl_cons]
    apply ih (fun d' hd' => hds d' (List.mem_cons_of_mem d hd'))
    intro x hx
    have hdw : WeaklyConnected ls nodeId d :=
      WeaklyConnected.base d (hds d (List.mem_cons_self d rest)).1
        (hds d (List.mem_cons_self d rest)).2
    rcases List.mem_append.1 hx with hx | hx
    · exact hacc x hx
    · rcases List.mem_cons.1 hx with rfl | hx
      · exact hdw
      · rcases List.mem_append.1 hx with hx | hx
        · exact findAll_getD_sound ns ls hnodup nodeId d .forward hdw x hx
        · exact findAll_getD_sound ns ls hnodup nodeId d .backward hdw x hx

theorem firstSeen_foldl_nodup (f : Node → String) :
    ∀ (ns : List Node) (acc : List String), acc.Nodup →
    (ns.foldl (fun acc n => if f n ∈ acc then acc else acc ++ [f n]) acc).Nodup := by
  intro ns
  induction ns with
  | nil => intro acc h; exact h
  | cons n rest ih =>
    intro acc h
    rw [List.foldl_cons]
    apply ih
    split
    · exact h
    · rename_i hmem
      refine List.Nodup.append h (by simp) ?_
      intro a ha hb
      simp at hb
      subst hb
      exact hmem ha

theorem firstSeen_foldl_mono (f : Node → String) :
    ∀ (ns : List Node) (acc : List String) (s : String), s ∈ acc →
    s ∈ ns.foldl (fun acc n => if f n ∈ acc then acc else acc ++ [f n]) acc := by
  intro ns
  induction ns with
  | nil => intro acc s h; exact h
  | cons n rest ih =>
    intro acc s h
    rw [List.foldl_cons]
    apply ih
    split
    · exact h
    · exact List.mem_append_left _ h

theorem firstSeen_foldl_mem (f : Node → String) :
    ∀ (ns : List Node) (acc : List String) (n : Node), n ∈ ns →
    f n ∈ ns.foldl (fun acc n => if f n ∈ acc then acc else acc ++ [f n]) acc := by
  intro ns
  induction ns with
  | nil => intro acc n h; simp at h
  | cons n₀ rest ih =>
    intro acc n h
    rw [List.foldl_cons]
    rcases List.mem_cons.1 h with rfl | h
    · apply firstSeen_foldl_mono
      split
      · assumption
      · exact List.mem_append_right _ (by simp)
    · exact ih _ n h

theorem firstSeenSegments_nodup (nodes : List Node) : (firstSeenSegments nodes).Nodup :=
  firstSeen_foldl_nodup (fun n => getFirstSegment n.name) nodes [] (by simp)

theorem firstSeenSegments_mem (nodes : List Node) (n : Node) (h : n ∈ nodes) :
    getFirstSegment n.name ∈ firstSeenSegments nodes :=
  firstSeen_foldl_mem (fun n => getFirstSegment n.name) nodes [] n h

theorem segmentColorsAux_count (nodes : List Node) :
    ∀ (segs : List String) (idx : Nat) (p : String × String),
    p ∈ segmentColorsAux nodes idx segs → 1 < segmentCount nodes p.1 := by
  intro segs
  induction segs with
  | nil => intro idx p h; simp [segmentColorsAux] at h
  | cons seg rest ih =>
    intro idx p h
    unfold segmentColorsAux at h
    split at h
    · rcases List.mem_cons.1 h with rfl | h
      · rename_i hcount
        exact hcount
      · exact ih (idx + 1) p h
    · exact ih idx p h

theorem segmentColorsAux_lookup (nodes : List Node) :
    ∀ (segs : List String) (idx : Nat), segs.Nodup →
    ∀ (k : Nat) (s : String),
    (segs.filter (fun s => 1 < segmentCount nodes s))[k]? = some s →
    (segmentColorsAux nodes idx segs).find? (fun p => p.1 = s) =
      some (s, colorPalette.getD ((idx + k) % colorPalette.length) defaultColor) := by
  intro segs
  induction segs with
  | nil => intro idx _ k s h; simp at h
  | cons seg rest ih =>
    intro idx hnd k s h
    rw [List.nodup_cons] at hnd
    rw [List.filter_cons] at h
    unfold segmentColorsAux
    by_cases hcount : 1 < segmentCount nodes seg
    · rw [if_pos hcount]
      rw [if_pos (decide_eq_true hcount)] at h
      cases k with
      | zero =>
        simp only [List.getElem?_cons_zero, Option.some.injEq] at h
        subst h
        rw [List.find?_cons_of_pos _ (by simp)]
        simp
      | succ k' =>
        simp only [List.getElem?_cons_succ] at h
        have hs : s ∈ rest := by
          have hmem : s ∈ rest.filter (fun s => 1 < segmentCount nodes s) :=
            List.mem_iff_getElem?.2 ⟨k', h⟩
          exact List.mem_of_mem_filter hmem
        have hne : ¬(seg = s) := fun he => hnd.1 (he ▸ hs)
        rw [List.find?_cons_of_neg _ (by simpa using hne)]
        have := ih (idx + 1) hnd.2 k' s h
        rw [this]
        have harith : idx + 1 + k' = idx + (k' + 1) := by omega
        rw [harith]
    · rw [if_neg hcount]
      rw [if_neg (by simpa using hcount)] at h
      exact ih idx hnd.2 k s h

theorem segmentColors_find_none (nodes : List Node) (s : String)
    (h : ¬1 < segmentCount nodes s) :
    (segmentColors nodes).find? (fun p => p.1 = s) = none := by
  rw [List.find?_eq_none]
  intro p hp
  have := segmentColorsAux_count nodes (firstSeenSegments nodes) 0 p hp
  intro hc
  have heq : p.1 = s := of_decide_eq_true hc
  exact h (heq ▸ this)

theorem le_foldl_max (v : Int) : ∀ (vs : List Int), v ≤ vs.foldl max v := by
  intro vs
  induction vs generalizing v with
  | nil => exact le_refl v
  | cons w ws ih =>
    rw [List.foldl_cons]
    exact le_trans (le_max_left v w) (ih (max v w))

theorem maxLinkValue_pos (ls : List Link) (h : ∀ l ∈ ls, 0 ≤ l.value) :
    1 ≤ maxLinkValue ls := by
  cases ls with
  | nil => simp [maxLinkValue]
  | cons l ls' =>
    show 1 ≤ (if (ls'.map (fun l => l.value)).foldl max l.value = 0 then 1
      else (ls'.map (fun l => l.value)).foldl max l.value)
    have hv : 0 ≤ l.value := h l (List.mem_cons_self l ls')
    have hm : l.value ≤ (ls'.map (fun l => l.value)).foldl max l.value :=
      le_foldl_max l.value (ls'.map (fun l => l.value))
    split
    · omega
    · rename_i hne
      omega

theorem linkWidthScale_add (ls : List Link) (v w : Int) :
    linkWidthScale ls (v + w) = linkWidthScale ls v + linkWidthScale ls w := by
  unfold linkWidthScale MIN_LINK_HEIGHT MAX_LINK_HEIGHT
  push_cast
  ring

theorem linkWidthScale_zero (ls : List Link) : linkWidthScale ls 0 = 0 := by
  unfold linkWidthScale MIN_LINK_HEIGHT MAX_LINK_HEIGHT
  norm_num

theorem sum_linkWidthScale (ls : List Link) :
    ∀ (xs : List Link),
    ((xs.map (fun l => linkWidthScale ls l.value)).sum) =
      linkWidthScale ls ((xs.map (fun l => l.value)).sum) := by
  intro xs
  induction xs with
  | nil => simp [linkWidthScale_zero]
  | cons x xs ih =>
    rw [List.map_cons, List.sum_cons, List.map_cons, List.sum_cons,
      linkWidthScale_add, ih]

theorem linkWidthScale_mono (ls : List Link) (hM : 1 ≤ maxLinkValue ls)
    (v w : Int) (h : v ≤ w) : linkWidthScale ls v ≤ linkWidthScale ls w := by
  unfold linkWidthScale MIN_LINK_HEIGHT MAX_LINK_HEIGHT
  have hMq : (0 : Rat) < (maxLinkValue ls : Rat) := by
    exact_mod_cast (by omega : (0 : Int) < maxLinkValue ls)
  have h1 : (v : Rat) / (maxLinkValue ls : Rat) ≤ (w : Rat) / (maxLinkValue ls : Rat) :=
    (div_le_div_right hMq).2 (by exact_mod_cast h)
  have h2 : (v : Rat) / (maxLinkValue ls : Rat) * (100 - 0) ≤
      (w : Rat) / (maxLinkValue ls : Rat) * (100 - 0) :=
    mul_le_mul_of_nonneg_right h1 (by norm_num)
  linarith

/-- C1: after build there is at most one link per ordered (source, target)
pair, and the total value carried by a pair — the single link's value when it
exists — equals the sum of the counts of the considered journeys containing
that exact label transition at that exact layer boundary; repeated
transitions accumulate rather than duplicate. -/
theorem claim_C1 (journeys : List Journey) (maxJourneys : Nat) :
    (∀ s t, ((buildGraph journeys maxJourneys).2.filter
      (fun l => l.source = s ∧ l.target = t)).length ≤ 1) ∧
    (∀ i a b, pairValue (buildGraph journeys maxJourneys).2
        (nodeKey i a) (nodeKey (i + 1) b) =
      ((journeys.take maxJourneys).map (fun j =>
        if j.path[i]? = some a ∧ j.path[i + 1]? = some b then j.count else 0)).sum) :=
  ⟨buildGraph_links_unique journeys maxJourneys,
    fun i a b => buildGraph_pairValue journeys maxJourneys i a b⟩

/-- C2: every node's `count` attribute equals the sum of the graph's link
values outgoing from it when its layer index is 0, and the sum of its
incoming link values otherwise. -/
theorem claim_C2 (journeys : List Journey) (maxJourneys : Nat) :
    ∀ bn ∈ attachLinks (buildGraph journeys maxJourneys).1
      (buildGraph journeys maxJourneys).2,
    nodeCount bn = if bn.step = 0
      then (((buildGraph journeys maxJourneys).2.filter
        (fun l => l.source = bn.id)).map (fun l => l.value)).sum
      else (((buildGraph journeys maxJourneys).2.filter
        (fun l => l.target = bn.id)).map (fun l => l.value)).sum := by
  intro bn hbn
  have hf := attachLinks_fields _ _ (buildGraph_nodes_nodup journeys maxJourneys) bn hbn
  unfold nodeCount outgoingValue incomingValue
  rw [hf.1, hf.2]

/-- C2 witness: the layer-0 node of a concrete two-journey graph. -/
theorem claim_C2_witness :
    nodeCount ⟨"0_/a", "/a", 0, [],
      [⟨"0_/a", "1_/b", 5⟩, ⟨"0_/a", "1_/c", 3⟩]⟩ =
      if (0 : Nat) = 0
      then (((buildGraph [⟨["/a", "/b"], 5, 50⟩, ⟨["/a", "/c"], 3, 30⟩] 5).2.filter
        (fun l => l.source = "0_/a")).map (fun l => l.value)).sum
      else (((buildGraph [⟨["/a", "/b"], 5, 50⟩, ⟨["/a", "/c"], 3, 30⟩] 5).2.filter
        (fun l => l.target = "0_/a")).map (fun l => l.value)).sum :=
  claim_C2 [⟨["/a", "/b"], 5, 50⟩, ⟨["/a", "/c"], 3, 30⟩] 5
    ⟨"0_/a", "/a", 0, [], [⟨"0_/a", "1_/b", 5⟩, ⟨"0_/a", "1_/c", 3⟩]⟩ (by decide)

/-- C3 (amended): the node-hover highlight set is sound — every link gathered
by the hover handler is weakly connected to the hovered node; the original
claim that it equals the full weakly-connected component fails (see the
counterexample). -/
theorem claim_C3 (journeys : List Journey) (maxJourneys : Nat) (nodeId : String) :
    ∀ x ∈ hoverConnectedLinks
      (attachLinks (buildGraph journeys maxJourneys).1 (buildGraph journeys maxJourneys).2)
      (buildGraph journeys maxJourneys).2 nodeId,
    WeaklyConnected (buildGraph journeys maxJourneys).2 nodeId x :=
  hoverConnectedLinks_sound _ _ (buildGraph_nodes_nodup journeys maxJourneys) nodeId

/-- C3 witness: on a one-journey graph, the hovered node's own link is
gathered and is weakly connected to it. -/
theorem claim_C3_witness :
    WeaklyConnected (buildGraph [⟨["/a", "/b"], 10, 100⟩] 5).2 "0_/a"
      ⟨"0_/a", "1_/b", 10⟩ :=
  claim_C3 [⟨["/a", "/b"], 10, 100⟩] 5 "0_/a" ⟨"0_/a", "1_/b", 10⟩ (by decide)

/-- C3 counterexample: with journeys a→x→c and b→x, hovering node (0, a)
gathers only the directed forward/backward closures, so the link b→x —
weakly connected to the hovered node through x — is left out of the
highlight set, refuting the claimed equality with the weakly-connected
component. -/
theorem claim_C3_counterexample :
    (⟨"0_b", "1_x", 1⟩ : Link) ∈
        (buildGraph [⟨["a", "x", "c"], 1, 1⟩, ⟨["b", "x"], 1, 1⟩] 10).2 ∧
    WeaklyConnected (buildGraph [⟨["a", "x", "c"], 1, 1⟩, ⟨["b", "x"], 1, 1⟩] 10).2
      "0_a" ⟨"0_b", "1_x", 1⟩ ∧
    (⟨"0_b", "1_x", 1⟩ : Link) ∉
        hoverConnectedLinks
          (attachLinks (buildGraph [⟨["a", "x", "c"], 1, 1⟩, ⟨["b", "x"], 1, 1⟩] 10).1
            (buildGraph [⟨["a", "x", "c"], 1, 1⟩, ⟨["b", "x"], 1, 1⟩] 10).2)
          (buildGraph [⟨["a", "x", "c"], 1, 1⟩, ⟨["b", "x"], 1, 1⟩] 10).2 "0_a" := by
  refine ⟨by decide, ?_, by decide⟩
  have h1 : WeaklyConnected
      (buildGraph [⟨["a", "x", "c"], 1, 1⟩, ⟨["b", "x"], 1, 1⟩] 10).2 "0_a"
      ⟨"0_a", "1_x", 1⟩ :=
    WeaklyConnected.base _ (by decide) (Or.inl rfl)
  exact WeaklyConnected.step _ _ h1 (by decide) (Or.inr (Or.inr (Or.inr rfl)))

/-- C4: on every built graph, the traversal seeded with a link of the graph
terminates (the iteration-bounded embedding returns a result), visits each
(source, target) pair at most once, and returns at most as many links as the
graph has. -/
theorem claim_C4 (journeys : List Journey) (maxJourneys : Nat)
    (dir : Direction) (l : Link)
    (hl : l ∈ (buildGraph journeys maxJourneys).2) :
    ∃ r, findAllConnectedPaths
        (attachLinks (buildGraph journeys maxJourneys).1 (buildGraph journeys maxJourneys).2)
        (buildGraph journeys maxJourneys).2 l dir = some r ∧
      (r.map (fun x => (x.source, x.target))).Nodup ∧
      r.length ≤ (buildGraph journeys maxJourneys).2.length := by
  obtain ⟨r, h1, _, h3, h4⟩ := findAllConnectedPaths_spec
    (buildGraph journeys maxJourneys).1 (buildGraph journeys maxJourneys).2
    (buildGraph_nodes_nodup journeys maxJourneys) l dir hl
  exact ⟨r, h1, h3, h4⟩

/-- C4 witness: forward traversal on a concrete one-link graph. -/
theorem claim_C4_witness :
    ∃ r, findAllConnectedPaths
        (attachLinks (buildGraph [⟨["/a", "/b"], 10, 100⟩] 5).1
          (buildGraph [⟨["/a", "/b"], 10, 100⟩] 5).2)
        (buildGraph [⟨["/a", "/b"], 10, 100⟩] 5).2 ⟨"0_/a", "1_/b", 10⟩ .forward = some r ∧
      (r.map (fun x => (x.source, x.target))).Nodup ∧
      r.length ≤ (buildGraph [⟨["/a", "/b"], 10, 100⟩] 5).2.length :=
  claim_C4 [⟨["/a", "/b"], 10, 100⟩] 5 .forward ⟨"0_/a", "1_/b", 10⟩ (by decide)

/-- C5: per node in every built graph, each side's links are sorted by
descending value with ties kept in creation order, then stacked top-aligned
from the node's top edge with each anchor at the running offset plus half
the link's scaled thickness. -/
theorem claim_C5 (journeys : List Journey) (maxJourneys : Nat) :
    ∀ bn ∈ attachLinks (buildGraph journeys maxJourneys).1
      (buildGraph journeys maxJourneys).2,
    SortedStacked (buildGraph journeys maxJourneys).2 bn.outgoingLinks
      (outgoingOffsets (buildGraph journeys maxJourneys).2 bn) ∧
    SortedStacked (buildGraph journeys maxJourneys).2 bn.incomingLinks
      (incomingOffsets (buildGraph journeys maxJourneys).2 bn) := by
  intro bn _
  refine ⟨⟨sortLinksDesc_pairwise bn.outgoingLinks,
      fun v => sortLinksDesc_stable v bn.outgoingLinks, ?_⟩,
    ⟨sortLinksDesc_pairwise bn.incomingLinks,
      fun v => sortLinksDesc_stable v bn.incomingLinks, ?_⟩⟩
  · intro k l off h
    obtain ⟨h1, h2⟩ := stackOffsets_get (buildGraph journeys maxJourneys).2
      (sortLinksDesc bn.outgoingLinks) 0 k l off h
    exact ⟨h1, by rw [h2]; ring⟩
  · intro k l off h
    obtain ⟨h1, h2⟩ := stackOffsets_get (buildGraph journeys maxJourneys).2
      (sortLinksDesc bn.incomingLinks) 0 k l off h
    exact ⟨h1, by rw [h2]; ring⟩

/-- C5 witness: the scenario node /a with outgoing links of values 5 and 3;
the sorted order puts the value-5 link first (topmost anchor). -/
theorem claim_C5_witness :
    (SortedStacked (buildGraph [⟨["/a", "/b"], 5, 50⟩, ⟨["/a", "/c"], 3, 30⟩] 5).2
        (⟨"0_/a", "/a", 0, [],
          [⟨"0_/a", "1_/b", 5⟩, ⟨"0_/a", "1_/c", 3⟩]⟩ : BNode).outgoingLinks
        (outgoingOffsets (buildGraph [⟨["/a", "/b"], 5, 50⟩, ⟨["/a", "/c"], 3, 30⟩] 5).2
          ⟨"0_/a", "/a", 0, [], [⟨"0_/a", "1_/b", 5⟩, ⟨"0_/a", "1_/c", 3⟩]⟩) ∧
      SortedStacked (buildGraph [⟨["/a", "/b"], 5, 50⟩, ⟨["/a", "/c"], 3, 30⟩] 5).2
        (⟨"0_/a", "/a", 0, [],
          [⟨"0_/a", "1_/b", 5⟩, ⟨"0_/a", "1_/c", 3⟩]⟩ : BNode).incomingLinks
        (incomingOffsets (buildGraph [⟨["/a", "/b"], 5, 50⟩, ⟨["/a", "/c"], 3, 30⟩] 5).2
          ⟨"0_/a", "/a", 0, [], [⟨"0_/a", "1_/b", 5⟩, ⟨"0_/a", "1_/c", 3⟩]⟩)) ∧
    sortLinksDesc (⟨"0_/a", "/a", 0, [],
        [⟨"0_/a", "1_/b", 5⟩, ⟨"0_/a", "1_/c", 3⟩]⟩ : BNode).outgoingLinks =
      [⟨"0_/a", "1_/b", 5⟩, ⟨"0_/a", "1_/c", 3⟩] :=
  ⟨claim_C5 [⟨["/a", "/b"], 5, 50⟩, ⟨["/a", "/c"], 3, 30⟩] 5
      ⟨"0_/a", "/a", 0, [], [⟨"0_/a", "1_/b", 5⟩, ⟨"0_/a", "1_/c", 3⟩]⟩ (by decide),
    by decide⟩

/-- C6: exactly one node exists per (layerIndex, label) pair occurring in the
considered journeys (and none otherwise — labels at different layers are
never merged), and every link connects a node at some layer to a node one
layer ahead. -/
theorem claim_C6 (journeys : List Journey) (maxJourneys : Nat) :
    (∀ i a, ((buildGraph journeys maxJourneys).1.filter
        (fun n => n.step = i ∧ n.name = a)).length =
      if pairOccurs journeys maxJourneys i a then 1 else 0) ∧
    (∀ l ∈ (buildGraph journeys maxJourneys).2,
      ∃ n₁ ∈ (buildGraph journeys maxJourneys).1,
      ∃ n₂ ∈ (buildGraph journeys maxJourneys).1,
        n₁.id = l.source ∧ n₂.id = l.target ∧ n₂.step = n₁.step + 1) := by
  constructor
  · exact fun i a => buildGraph_node_count journeys maxJourneys i a
  · intro l hl
    obtain ⟨⟨n₁, hn₁, hs⟩, ⟨n₂, hn₂, ht⟩⟩ := buildGraph_closed journeys maxJourneys l hl
    obtain ⟨i, a, b, hsk, htk⟩ := buildGraph_links_span journeys maxJourneys l hl
    have hw := buildGraph_nodes_wf journeys maxJourneys
    have e₁ : nodeKey n₁.step n₁.name = nodeKey i a := by rw [← hw n₁ hn₁, hs, hsk]
    have e₂ : nodeKey n₂.step n₂.name = nodeKey (i + 1) b := by rw [← hw n₂ hn₂, ht, htk]
    refine ⟨n₁, hn₁, n₂, hn₂, hs, ht, ?_⟩
    rw [(nodeKey_injective _ _ _ _ e₂).1, (nodeKey_injective _ _ _ _ e₁).1]

/-- C6 witness: a concrete two-node graph has exactly one node for the
occurring pair (0, /a), no node for the absent pair (1, /a), and its link
spans consecutive layers. -/
theorem claim_C6_witness :
    (((buildGraph [⟨["/a", "/b"], 10, 100⟩] 5).1.filter
        (fun n => n.step = 0 ∧ n.name = "/a")).length =
      if pairOccurs [⟨["/a", "/b"], 10, 100⟩] 5 0 "/a" then 1 else 0) ∧
    (((buildGraph [⟨["/a", "/b"], 10, 100⟩] 5).1.filter
        (fun n => n.step = 1 ∧ n.name = "/a")).length =
      if pairOccurs [⟨["/a", "/b"], 10, 100⟩] 5 1 "/a" then 1 else 0) ∧
    (∃ n₁ ∈ (buildGraph [⟨["/a", "/b"], 10, 100⟩] 5).1,
      ∃ n₂ ∈ (buildGraph [⟨["/a", "/b"], 10, 100⟩] 5).1,
        n₁.id = (⟨"0_/a", "1_/b", 10⟩ : Link).source ∧
        n₂.id = (⟨"0_/a", "1_/b", 10⟩ : Link).target ∧ n₂.step = n₁.step + 1) :=
  ⟨(claim_C6 [⟨["/a", "/b"], 10, 100⟩] 5).1 0 "/a",
    (claim_C6 [⟨["/a", "/b"], 10, 100⟩] 5).1 1 "/a",
    (claim_C6 [⟨["/a", "/b"], 10, 100⟩] 5).2 ⟨"0_/a", "1_/b", 10⟩ (by decide)⟩

/-- C7: a node's percentage is the `percentage` of the first journey — in
input order over the full input list, not the considered slice — whose path
entry at the node's layer equals the node's label, and 0 when none
matches. -/
theorem claim_C7 (journeys : List Journey) (maxJourneys : Nat) :
    ∀ bn ∈ attachLinks (buildGraph journeys maxJourneys).1
      (buildGraph journeys maxJourneys).2,
    (∃ (k : Nat) (j : Journey), journeys[k]? = some j ∧
      j.path[bn.step]? = some bn.name ∧
      (∀ (k' : Nat) (j' : Journey), k' < k → journeys[k']? = some j' →
        ¬(j'.path[bn.step]? = some bn.name)) ∧
      nodePercentage journeys bn = j.percentage) ∨
    ((∀ j ∈ journeys, ¬(j.path[bn.step]? = some bn.name)) ∧
      nodePercentage journeys bn = 0) := by
  intro bn hbn
  clear hbn
  induction journeys with
  | nil =>
    right
    exact ⟨by simp, rfl⟩
  | cons j rest ih =>
    by_cases hj : j.path[bn.step]? = some bn.name
    · left
      refine ⟨0, j, by simp, hj, ?_, ?_⟩
      · intro k' j' hk' _
        omega
      · show (match (j :: rest).find?
            (fun j => j.path[bn.step]? = some bn.name) with
          | some j => j.percentage
          | none => 0) = j.percentage
        rw [show (j :: rest).find?
            (fun j => decide (j.path[bn.step]? = some bn.name)) = some j from
          List.find?_cons_of_pos _ (decide_eq_true hj)]
    · have hstep : nodePercentage (j :: rest) bn = nodePercentage rest bn := by
        show (match (j :: rest).find?
            (fun j => j.path[bn.step]? = some bn.name) with
          | some j => j.percentage
          | none => 0) = _
        rw [show (j :: rest).find?
            (fun j => decide (j.path[bn.step]? = some bn.name)) =
            rest.find? (fun j => decide (j.path[bn.step]? = some bn.name)) from
          List.find?_cons_of_neg _ (by simpa using hj)]
        rfl
      rcases ih with ⟨k, j', h1, h2, h3, h4⟩ | ⟨h1, h2⟩
      · left
        refine ⟨k + 1, j', by simpa using h1, h2, ?_, by rw [hstep]; exact h4⟩
        intro k' j'' hk' hg
        cases k' with
        | zero =>
          simp at hg
          rw [← hg]
          exact hj
        | succ k'' =>
          exact h3 k'' j'' (by omega) (by simpa using hg)
      · right
        refine ⟨?_, by rw [hstep]; exact h2⟩
        intro j'' hj''
        rcases List.mem_cons.1 hj'' with rfl | hj''
        · exact hj
        · exact h1 j'' hj''

/-- C7 witness: node /a of a two-journey graph takes the first journey's
percentage. -/
theorem claim_C7_witness :
    (∃ (k : Nat) (j : Journey),
      ([⟨["/a", "/b"], 5, 50⟩, ⟨["/a", "/c"], 3, 30⟩] : List Journey)[k]? = some j ∧
      j.path[(⟨"0_/a", "/a", 0, [],
        [⟨"0_/a", "1_/b", 5⟩, ⟨"0_/a", "1_/c", 3⟩]⟩ : BNode).step]? =
        some (⟨"0_/a", "/a", 0, [],
          [⟨"0_/a", "1_/b", 5⟩, ⟨"0_/a", "1_/c", 3⟩]⟩ : BNode).name ∧
      (∀ (k' : Nat) (j' : Journey), k' < k →
        ([⟨["/a", "/b"], 5, 50⟩, ⟨["/a", "/c"], 3, 30⟩] : List Journey)[k']? = some j' →
        ¬(j'.path[(⟨"0_/a", "/a", 0, [],
          [⟨"0_/a", "1_/b", 5⟩, ⟨"0_/a", "1_/c", 3⟩]⟩ : BNode).step]? =
          some (⟨"0_/a", "/a", 0, [],
            [⟨"0_/a", "1_/b", 5⟩, ⟨"0_/a", "1_/c", 3⟩]⟩ : BNode).name)) ∧
      nodePercentage [⟨["/a", "/b"], 5, 50⟩, ⟨["/a", "/c"], 3, 30⟩]
        ⟨"0_/a", "/a", 0, [], [⟨"0_/a", "1_/b", 5⟩, ⟨"0_/a", "1_/c", 3⟩]⟩ =
        j.percentage) ∨
    ((∀ j ∈ ([⟨["/a", "/b"], 5, 50⟩, ⟨["/a", "/c"], 3, 30⟩] : List Journey),
      ¬(j.path[(⟨"0_/a", "/a", 0, [],
        [⟨"0_/a", "1_/b", 5⟩, ⟨"0_/a", "1_/c", 3⟩]⟩ : BNode).step]? =
        some (⟨"0_/a", "/a", 0, [],
          [⟨"0_/a", "1_/b", 5⟩, ⟨"0_/a", "1_/c", 3⟩]⟩ : BNode).name)) ∧
      nodePercentage [⟨["/a", "/b"], 5, 50⟩, ⟨["/a", "/c"], 3, 30⟩]
        ⟨"0_/a", "/a", 0, [], [⟨"0_/a", "1_/b", 5⟩, ⟨"0_/a", "1_/c", 3⟩]⟩ = 0) :=
  claim_C7 [⟨["/a", "/b"], 5, 50⟩, ⟨["/a", "/c"], 3, 30⟩] 5
    ⟨"0_/a", "/a", 0, [], [⟨"0_/a", "1_/b", 5⟩, ⟨"0_/a", "1_/c", 3⟩]⟩ (by decide)

/-- C8: the builder considers only the first `maxJourneys` journeys; an empty
journey list, a zero cutoff, or all-empty paths yield the empty graph; the
embedding is total, so no error can arise. -/
theorem claim_C8 (journeys : List Journey) (maxJourneys : Nat) :
    buildGraph journeys maxJourneys = buildGraph (journeys.take maxJourneys) maxJourneys ∧
    buildGraph [] maxJourneys = ([], []) ∧
    buildGraph journeys 0 = ([], []) ∧
    ((∀ j ∈ journeys, j.path = []) → buildGraph journeys maxJourneys = ([], [])) := by
  refine ⟨?_, by simp [buildGraph], rfl, ?_⟩
  · unfold buildGraph
    rw [List.take_take, min_self]
  · intro h
    unfold buildGraph
    refine foldl_build_inv (fun st => st = ([], [])) (journeys.take maxJourneys)
      ([], []) (fun j hj st hst => ?_) rfl
    rw [h j (List.mem_of_mem_take hj)]
    subst hst
    rfl

/-- C8 witness: a list of one empty-path journey yields the empty graph under
every clause. -/
theorem claim_C8_witness :
    buildGraph [⟨[], 1, 1⟩] 3 = buildGraph (([⟨[], 1, 1⟩] : List Journey).take 3) 3 ∧
    buildGraph [] 3 = ([], []) ∧
    buildGraph [⟨[], 1, 1⟩] 0 = ([], []) ∧
    buildGraph [⟨[], 1, 1⟩] 3 = ([], []) :=
  ⟨(claim_C8 [⟨[], 1, 1⟩] 3).1, (claim_C8 [⟨[], 1, 1⟩] 3).2.1,
    (claim_C8 [⟨[], 1, 1⟩] 3).2.2.1, (claim_C8 [⟨[], 1, 1⟩] 3).2.2.2 (by decide)⟩

/-- C9: repeated segment keys are assigned palette colors round-robin in
first-seen order wrapping modulo the palette size, one-off segment keys get
the default color, a node's color is determined by its segment key's entry,
and every link's color is its source node's color. -/
theorem claim_C9 (journeys : List Journey) (maxJourneys : Nat) (fallback : String) :
    (∀ k s, (((firstSeenSegments (buildGraph journeys maxJourneys).1).filter
        (fun s => 1 < segmentCount (buildGraph journeys maxJourneys).1 s))[k]? = some s) →
      (segmentColors (buildGraph journeys maxJourneys).1).find? (fun p => p.1 = s) =
        some (s, colorPalette.getD (k % colorPalette.length) defaultColor)) ∧
    (∀ n ∈ (buildGraph journeys maxJourneys).1,
      segmentCount (buildGraph journeys maxJourneys).1 (getFirstSegment n.name) = 1 →
      getNodeColor (buildGraph journeys maxJourneys).1 n = defaultColor) ∧
    (∀ n ∈ (buildGraph journeys maxJourneys).1,
      1 < segmentCount (buildGraph journeys maxJourneys).1 (getFirstSegment n.name) →
      ∃ k, (((firstSeenSegments (buildGraph journeys maxJourneys).1).filter
          (fun s => 1 < segmentCount (buildGraph journeys maxJourneys).1 s))[k]? =
          some (getFirstSegment n.name)) ∧
        getNodeColor (buildGraph journeys maxJourneys).1 n =
          colorPalette.getD (k % colorPalette.length) defaultColor) ∧
    (∀ l ∈ (buildGraph journeys maxJourneys).2,
      ∃ n ∈ (buildGraph journeys maxJourneys).1, n.id = l.source ∧
        getLinkColor (buildGraph journeys maxJourneys).1 fallback l =
          getNodeColor (buildGraph journeys maxJourneys).1 n) := by
  refine ⟨?_, ?_, ?_, ?_⟩
  · intro k s h
    have hl := segmentColorsAux_lookup (buildGraph journeys maxJourneys).1
      (firstSeenSegments (buildGraph journeys maxJourneys).1) 0
      (firstSeenSegments_nodup (buildGraph journeys maxJourneys).1) k s h
    rw [Nat.zero_add] at hl
    exact hl
  · intro n _ hone
    unfold getNodeColor
    rw [segmentColors_find_none (buildGraph journeys maxJourneys).1 _ (by omega)]
  · intro n hn hgt
    have hmem : getFirstSegment n.name ∈
        (firstSeenSegments (buildGraph journeys maxJourneys).1).filter
          (fun s => 1 < segmentCount (buildGraph journeys maxJourneys).1 s) :=
      List.mem_filter.2 ⟨firstSeenSegments_mem (buildGraph journeys maxJourneys).1 n hn,
        by simpa using hgt⟩
    obtain ⟨k, hk⟩ := List.mem_iff_getElem?.1 hmem
    refine ⟨k, hk, ?_⟩
    have hfind := segmentColorsAux_lookup (buildGraph journeys maxJourneys).1
      (firstSeenSegments (buildGraph journeys maxJourneys).1) 0
      (firstSeenSegments_nodup (buildGraph journeys maxJourneys).1) k
      (getFirstSegment n.name) hk
    rw [Nat.zero_add] at hfind
    unfold getNodeColor
    rw [show segmentColors (buildGraph journeys maxJourneys).1 =
      segmentColorsAux (buildGraph journeys maxJourneys).1 0
        (firstSeenSegments (buildGraph journeys maxJourneys).1) from rfl, hfind]
  · intro l hl
    obtain ⟨⟨n₁, hn₁, hs⟩, -⟩ := buildGraph_closed journeys maxJourneys l hl
    have hsome : ((buildGraph journeys maxJourneys).1.find?
        (fun n => n.id = l.source)).isSome :=
      List.find?_isSome.2 ⟨n₁, hn₁, by simpa using hs⟩
    obtain ⟨n', hn'⟩ := Option.isSome_iff_exists.1 hsome
    refine ⟨n', List.mem_of_find?_eq_some hn',
      by simpa using List.find?_some hn', ?_⟩
    unfold getLinkColor
    rw [hn']

/-- C9 witness: the repeated segment /a gets the first palette color, a
one-off segment gets the default color, and a link inherits its source
node's color. -/
theorem claim_C9_witness :
    ((segmentColors (buildGraph [⟨["/a/x", "/a/y"], 1, 1⟩] 5).1).find?
        (fun p => p.1 = "/a") =
      some ("/a", colorPalette.getD (0 % colorPalette.length) defaultColor)) ∧
    getNodeColor (buildGraph [⟨["/a", "/b"], 1, 1⟩] 5).1 ⟨"0_/a", "/a", 0⟩ =
      defaultColor ∧
    (∃ n ∈ (buildGraph [⟨["/a/x", "/a/y"], 1, 1⟩] 5).1,
      n.id = (⟨"0_/a/x", "1_/a/y", 1⟩ : Link).source ∧
        getLinkColor (buildGraph [⟨["/a/x", "/a/y"], 1, 1⟩] 5).1 "gray"
            ⟨"0_/a/x", "1_/a/y", 1⟩ =
          getNodeColor (buildGraph [⟨["/a/x", "/a/y"], 1, 1⟩] 5).1 n) :=
  ⟨(claim_C9 [⟨["/a/x", "/a/y"], 1, 1⟩] 5 "gray").1 0 "/a" (by decide),
    (claim_C9 [⟨["/a", "/b"], 1, 1⟩] 5 "gray").2.1 ⟨"0_/a", "/a", 0⟩ (by decide) (by decide),
    (claim_C9 [⟨["/a/x", "/a/y"], 1, 1⟩] 5 "gray").2.2.2 ⟨"0_/a/x", "1_/a/y", 1⟩ (by decide)⟩

/-- C10: with non-negative journey counts, the total scaled thickness of a
node's outgoing links and of its incoming links each fit within the node's
height, so the stacked anchors stay inside the node's vertical extent. -/
theorem claim_C10 (journeys : List Journey) (maxJourneys : Nat)
    (hc : ∀ j ∈ journeys, 0 ≤ j.count) :
    ∀ bn ∈ attachLinks (buildGraph journeys maxJourneys).1
      (buildGraph journeys maxJourneys).2,
    ((bn.outgoingLinks.map
        (fun l => linkWidthScale (buildGraph journeys maxJourneys).2 l.value)).sum ≤
      nodeHeight (buildGraph journeys maxJourneys).2 bn) ∧
    ((bn.incomingLinks.map
        (fun l => linkWidthScale (buildGraph journeys maxJourneys).2 l.value)).sum ≤
      nodeHeight (buildGraph journeys maxJourneys).2 bn) := by
  intro bn hbn
  have hnn := buildGraph_links_nonneg journeys maxJourneys hc
  have hM := maxLinkValue_pos (buildGraph journeys maxJourneys).2 hnn
  have hfields := attachLinks_fields _ _ (buildGraph_nodes_nodup journeys maxJourneys) bn hbn
  constructor
  · rw [sum_linkWidthScale]
    unfold nodeHeight
    have h1 : ((bn.outgoingLinks.map (fun l => l.value)).sum) ≤
        max (incomingValue bn) (outgoingValue bn) :=
      le_max_right (incomingValue bn) (outgoingValue bn)
    exact le_trans (linkWidthScale_mono _ hM _ _ h1) (le_max_left _ _)
  · rw [sum_linkWidthScale]
    unfold nodeHeight
    have h1 : ((bn.incomingLinks.map (fun l => l.value)).sum) ≤
        max (incomingValue bn) (outgoingValue bn) :=
      le_max_left (incomingValue bn) (outgoingValue bn)
    exact le_trans (linkWidthScale_mono _ hM _ _ h1) (le_max_left _ _)

/-- C10 witness: the two-journey scenario node with non-negative counts. -/
theorem claim_C10_witness :
    (((⟨"0_/a", "/a", 0, [], [⟨"0_/a", "1_/b", 5⟩, ⟨"0_/a", "1_/c", 3⟩]⟩ :
        BNode).outgoingLinks.map
        (fun l => linkWidthScale
          (buildGraph [⟨["/a", "/b"], 5, 50⟩, ⟨["/a", "/c"], 3, 30⟩] 5).2 l.value)).sum ≤
      nodeHeight (buildGraph [⟨["/a", "/b"], 5, 50⟩, ⟨["/a", "/c"], 3, 30⟩] 5).2
        ⟨"0_/a", "/a", 0, [], [⟨"0_/a", "1_/b", 5⟩, ⟨"0_/a", "1_/c", 3⟩]⟩) ∧
    (((⟨"0_/a", "/a", 0, [], [⟨"0_/a", "1_/b", 5⟩, ⟨"0_/a", "1_/c", 3⟩]⟩ :
        BNode).incomingLinks.map
        (fun l => linkWidthScale
          (buildGraph [⟨["/a", "/b"], 5, 50⟩, ⟨["/a", "/c"], 3, 30⟩] 5).2 l.value)).sum ≤
      nodeHeight (buildGraph [⟨["/a", "/b"], 5, 50⟩, ⟨["/a", "/c"], 3, 30⟩] 5).2
        ⟨"0_/a", "/a", 0, [], [⟨"0_/a", "1_/b", 5⟩, ⟨"0_/a", "1_/c", 3⟩]⟩) :=
  claim_C10 [⟨["/a", "/b"], 5, 50⟩, ⟨["/a", "/c"], 3, 30⟩] 5 (by decide)
    ⟨"0_/a", "/a", 0, [], [⟨"0_/a", "1_/b", 5⟩, ⟨"0_/a", "1_/c", 3⟩]⟩ (by decide)

end Sankey

section Checks

example : Sankey.nodeKey 3 "/a" = "3_/a" := by decide

example : Sankey.getFirstSegment "/a/x" = "/a" := by decide

example : Sankey.getFirstSegment "" = "" := by decide

example : Sankey.getFirstSegment "b/c" = "/b" := by decide

example :
    Sankey.buildGraph [⟨["/a", "/b"], 10, 100⟩] 5 =
      ([⟨"0_/a", "/a", 0⟩, ⟨"1_/b", "/b", 1⟩], [⟨"0_/a", "1_/b", 10⟩]) := by decide

example :
    Sankey.attachLinks [⟨"0_/a", "/a", 0⟩, ⟨"1_/b", "/b", 1⟩] [⟨"0_/a", "1_/b", 10⟩] =
      [⟨"0_/a", "/a", 0, [], [⟨"0_/a", "1_/b", 10⟩]⟩,
        ⟨"1_/b", "/b", 1, [⟨"0_/a", "1_/b", 10⟩], []⟩] := by decide

example :
    Sankey.findAllConnectedPaths
      [⟨"0_/a", "/a", 0, [], [⟨"0_/a", "1_/b", 10⟩]⟩,
        ⟨"1_/b", "/b", 1, [⟨"0_/a", "1_/b", 10⟩], []⟩]
      [⟨"0_/a", "1_/b", 10⟩] ⟨"0_/a", "1_/b", 10⟩ .forward =
      some [⟨"0_/a", "1_/b", 10⟩] := by decide

example :
    Sankey.hoverConnectedLinks
      [⟨"0_/a", "/a", 0, [], [⟨"0_/a", "1_/b", 10⟩]⟩,
        ⟨"1_/b", "/b", 1, [⟨"0_/a", "1_/b", 10⟩], []⟩]
      [⟨"0_/a", "1_/b", 10⟩] "0_/a" =
      [⟨"0_/a", "1_/b", 10⟩, ⟨"0_/a", "1_/b", 10⟩, ⟨"0_/a", "1_/b", 10⟩] := by decide

end Checks
